import Mathlib

set_option autoImplicit false

/-!
Verification of the core data-structure library of redis-2.8-anot:
the dynamic string (sds), the integer set (intset) and the
incrementally-rehashing hash table (dict).

The repository ships the three headers `sds.h`, `intset.h`, `dict.h`
(structure layouts, macros and API declarations).  Constants, structure
layouts and macros are embedded from those headers.  The function bodies
(`sds.c`, `intset.c`, `dict.c`) are not part of the source tree, so each
operation is modelled from the specification's description of it; such
definitions carry a doc comment starting with `Modelled from the spec:`.
-/

/- ===================== Dynamic string (sds) ===================== -/

/-- `SDS_MAX_PREALLOC` from sds.h: the 1 MiB pre-allocation threshold. -/
def SDS_MAX_PREALLOC : Nat := 1024 * 1024

/-- The `sdshdr` header from sds.h: `len` counts the used bytes, `free` the
unused capacity after them, and `buf` is the whole allocated byte region
(used bytes, the sentinel zero byte at offset `len`, and the free region). -/
structure Sdshdr where
  len : Nat
  free : Nat
  buf : List Nat
deriving DecidableEq, Repr

/-- The sds invariants: capacity is `len + free + 1` and the byte at
offset `len` is the sentinel zero. -/
def sdsWF (s : Sdshdr) : Prop :=
  s.buf.length = s.len + s.free + 1 ∧ s.buf.getD s.len 1 = 0

instance (s : Sdshdr) : Decidable (sdsWF s) := by
  unfold sdsWF; infer_instance

/-- `sdslen` from sds.h: read the `len` field of the header. -/
def sdslen (s : Sdshdr) : Nat := s.len

/-- `sdsavail` from sds.h: read the `free` field of the header. -/
def sdsavail (s : Sdshdr) : Nat := s.free

/-- Modelled from the spec: `sdsMakeRoomFor` (`grow_room`), whose body
(`sds.c`) is not in the source tree.  If `free ≥ addlen` the string is
returned unchanged; otherwise the buffer is reallocated so that the usable
length becomes `len + addlen`, then over-allocated: doubled while below the
1 MiB threshold, otherwise grown by one further MiB.  Reallocation keeps the
old bytes and extends the block (the fresh region is modelled as zeros). -/
def sdsMakeRoomFor (s : Sdshdr) (addlen : Nat) : Sdshdr :=
  if addlen ≤ s.free then s
  else
    let newlen0 := s.len + addlen
    let newlen := if newlen0 < SDS_MAX_PREALLOC then 2 * newlen0
                  else newlen0 + SDS_MAX_PREALLOC
    { len := s.len
    , free := newlen - s.len
    , buf := s.buf ++ List.replicate (newlen + 1 - s.buf.length) 0 }

/-- Modelled from the spec: `sdsIncrLen` (`incr_len`), whose body (`sds.c`)
is not in the source tree.  The boundary between used and free bytes moves
by `incr` (possibly negative) without reallocation and the sentinel zero is
rewritten at the new `len`; the call fails (`none`), leaving the string
unchanged, when the move would make `len` or `free` negative. -/
def sdsIncrLen (s : Sdshdr) (incr : Int) : Option Sdshdr :=
  if (s.len : Int) + incr < 0 ∨ (s.free : Int) - incr < 0 then none
  else
    let newlen := ((s.len : Int) + incr).toNat
    some { len := newlen
         , free := ((s.free : Int) - incr).toNat
         , buf := s.buf.set newlen 0 }

/- ===================== Integer set (intset) ===================== -/

/-- The encodings from intset.c's `INTSET_ENC_INT16/32/64`, measured (as in
the C source) in bytes per element: 2, 4 or 8. -/
def INTSET_ENC_INT16 : Nat := 2

/-- 32-bit intset encoding (4 bytes per element). -/
def INTSET_ENC_INT32 : Nat := 4

/-- 64-bit intset encoding (8 bytes per element). -/
def INTSET_ENC_INT64 : Nat := 8

/-- The `intset` structure from intset.h: the current `encoding` and the
flat sorted array of elements (read off from `contents` at that width). -/
structure Intset where
  encoding : Nat
  contents : List Int
deriving DecidableEq, Repr

/-- `length` field of intset.h's header: the element count. -/
def intsetLen (is : Intset) : Nat := is.contents.length

/-- Modelled from the spec: `_intsetValueEncoding` (intset.c is not in the
source tree) — the smallest of the three encodings that fits `v`. -/
def intsetValueEncoding (v : Int) : Nat :=
  if -32768 ≤ v ∧ v < 32768 then INTSET_ENC_INT16
  else if -2147483648 ≤ v ∧ v < 2147483648 then INTSET_ENC_INT32
  else INTSET_ENC_INT64

/-- Modelled from the spec: `intsetNew` — the empty set with 16-bit
encoding. -/
def intsetNew : Intset := ⟨INTSET_ENC_INT16, []⟩

/-- Sorted insertion into the element list, used by the in-encoding branch
of `intsetAdd` ("insert in sorted order"). -/
def intsetInsertSorted (v : Int) : List Int → List Int
  | [] => [v]
  | x :: xs => if v < x then v :: x :: xs else x :: intsetInsertSorted v xs

/-- Modelled from the spec: `intsetAdd` (intset.c is not in the source
tree).  If `v` needs a wider encoding, upgrade every element and insert `v`
at position 0 or `length` (it is the new minimum or maximum — negative
values go in front); if `v` fits and is absent, insert it in sorted order;
if present, report failure.  Returns the new set and whether insertion
occurred. -/
def intsetAdd (is : Intset) (v : Int) : Intset × Bool :=
  let valenc := intsetValueEncoding v
  if is.encoding < valenc then
    ( { encoding := valenc
      , contents := if v < 0 then v :: is.contents else is.contents ++ [v] }
    , true )
  else if v ∈ is.contents then (is, false)
  else ({ is with contents := intsetInsertSorted v is.contents }, true)

/-- Modelled from the spec: `intsetRemove` (intset.c is not in the source
tree).  If `v` fits the encoding and is present it is spliced out, keeping
order and keeping the encoding (no downgrade); otherwise nothing changes. -/
def intsetRemove (is : Intset) (v : Int) : Intset × Bool :=
  if intsetValueEncoding v ≤ is.encoding ∧ v ∈ is.contents then
    ({ is with contents := is.contents.erase v }, true)
  else (is, false)

/-- Modelled from the spec: `intsetFind` (intset.c is not in the source
tree) — false without searching when `v` does not fit the encoding, else a
membership search. -/
def intsetFind (is : Intset) (v : Int) : Bool :=
  intsetValueEncoding v ≤ is.encoding ∧ v ∈ is.contents

/-- The intset order invariant: elements strictly ascending (hence no
duplicates). -/
def intsetSorted (is : Intset) : Prop :=
  is.contents.Pairwise (· < ·)

instance (is : Intset) : Decidable (intsetSorted is) := by
  unfold intsetSorted; infer_instance

/-- The intset encoding invariant: the encoding is the smallest of the
three that fits every present element (16-bit for the empty set). -/
def intsetMinimalEncoding (is : Intset) : Prop :=
  is.encoding = (is.contents.map intsetValueEncoding).foldr max INTSET_ENC_INT16

instance (is : Intset) : Decidable (intsetMinimalEncoding is) := by
  unfold intsetMinimalEncoding; infer_instance

/-- The intset encoding is wide enough for every element (holds even after
removals, which never downgrade). -/
def intsetEncodingFits (is : Intset) : Prop :=
  ∀ v ∈ is.contents, intsetValueEncoding v ≤ is.encoding

instance (is : Intset) : Decidable (intsetEncodingFits is) := by
  unfold intsetEncodingFits; infer_instance

/- ===================== Hash table (dict) ===================== -/

/-- `DICT_OK` from dict.h. -/
def DICT_OK : Nat := 0

/-- `DICT_ERR` from dict.h. -/
def DICT_ERR : Nat := 1

/-- `DICT_HT_INITIAL_SIZE` from dict.h. -/
def DICT_HT_INITIAL_SIZE : Nat := 4

/-- A `dictEntry` from dict.h.  Keys are embedded as naturals.  The value
union `{ void *val; uint64_t u64; int64_t s64; }` carries no discriminant:
it is embedded as the raw 64-bit pattern `v` (a natural below `2^64`), which
each accessor reinterprets.  The `next` chain pointer becomes the position
in the bucket list. -/
structure DictEntry where
  key : Nat
  v : Nat
deriving DecidableEq, Repr

/-- A bucket: the chain of entries hanging off one slot of a sub-table. -/
abbrev Bucket := List DictEntry

/-- The callback invocations a value-storing or value-freeing macro
performs, recorded so that "no callback is invoked" is a statement. -/
inductive ValEvent where
  | valDup (arg : Nat)
  | valDestructor (arg : Nat)
deriving DecidableEq, Repr

/-- `dictSetSignedIntegerVal` from dict.h: store a signed 64-bit integer in
the value union (two's complement pattern).  The macro body is the plain
assignment `entry->v.s64 = _val_`, so the callback-event list it produces
is empty. -/
def dictSetSignedIntegerVal (e : DictEntry) (val : Int) :
    DictEntry × List ValEvent :=
  ({ e with v := (val % (2 ^ 64 : Int)).toNat }, [])

/-- `dictSetUnsignedIntegerVal` from dict.h: store an unsigned 64-bit
integer in the value union; the macro body is the plain assignment
`entry->v.u64 = _val_`, producing no callback event. -/
def dictSetUnsignedIntegerVal (e : DictEntry) (val : Nat) :
    DictEntry × List ValEvent :=
  ({ e with v := val % 2 ^ 64 }, [])

/-- `dictGetUnsignedIntegerVal` from dict.h: read the union as `u64`. -/
def dictGetUnsignedIntegerVal (e : DictEntry) : Nat := e.v

/-- `dictGetSignedIntegerVal` from dict.h: read the union as `s64`
(two's-complement reinterpretation of the stored pattern). -/
def dictGetSignedIntegerVal (e : DictEntry) : Int :=
  if e.v < 2 ^ 63 then (e.v : Int) else (e.v : Int) - 2 ^ 64

/-- `dictGetVal` from dict.h: read the union as the opaque pointer. -/
def dictGetVal (e : DictEntry) : Nat := e.v

/-- `dictSetVal` from dict.h: with a `valDup` configured the macro stores
`valDup(privdata, val)` (embedded as `val` itself, with the invocation
recorded); otherwise it stores `val` directly. -/
def dictSetVal (hasValDup : Bool) (e : DictEntry) (val : Nat) :
    DictEntry × List ValEvent :=
  if hasValDup then ({ e with v := val }, [.valDup val])
  else ({ e with v := val }, [])

/-- `dictFreeVal` from dict.h: invoke the value destructor on the entry's
value when one is configured. -/
def dictFreeVal (hasValDestructor : Bool) (e : DictEntry) : List ValEvent :=
  if hasValDestructor then [.valDestructor e.v] else []

/-- A `dictht` sub-table from dict.h: the bucket array `table`, its `size`,
the index mask `sizemask` and the live-entry count `used`. -/
structure Dictht where
  table : List Bucket
  size : Nat
  sizemask : Nat
  used : Nat
deriving DecidableEq, Repr

/-- `_dictReset`: the empty, unallocated sub-table. -/
def emptyHt : Dictht := ⟨[], 0, 0, 0⟩

/-- The `dict` structure from dict.h: two sub-tables, the rehash index
(−1 when not rehashing) and the live safe-iterator count.  The hash
function is passed to each operation explicitly (it lives in the `dictType`
vtable in C). -/
structure Dict where
  ht0 : Dictht
  ht1 : Dictht
  rehashidx : Int
  iterators : Nat
deriving DecidableEq, Repr

/-- `dictIsRehashing` from dict.h: `rehashidx != -1`. -/
def dictIsRehashing (d : Dict) : Bool := d.rehashidx != -1

/-- `dictSize` from dict.h: `ht[0].used + ht[1].used`. -/
def dictSize (d : Dict) : Nat := d.ht0.used + d.ht1.used

/-- `dictSlots` from dict.h: `ht[0].size + ht[1].size`. -/
def dictSlots (d : Dict) : Nat := d.ht0.size + d.ht1.size

/-- Modelled from the spec: `dictCreate` — both sub-tables empty,
`rehashidx = −1`, no live iterators. -/
def dictCreate : Dict := ⟨emptyHt, emptyHt, -1, 0⟩

/-- Read bucket `i` of a sub-table (out-of-range reads as empty). -/
def htBucket (t : Dictht) (i : Nat) : Bucket := t.table.getD i []

/-- The bucket index of a hash value `hk` in sub-table `t`:
`hk & t.sizemask` as in dict.h's indexing discipline. -/
def htIndex (t : Dictht) (hk : Nat) : Nat := hk &&& t.sizemask

/-- Walk a chain looking for `key` (the default pointer-equality comparator
of `dictCompareKeys`, embedded as equality of naturals). -/
def bucketFind (k : Nat) : Bucket → Option DictEntry
  | [] => none
  | e :: rest => if e.key = k then some e else bucketFind k rest

/-- Unlink the entry with key `k` from a chain, returning it and the
remaining chain, or `none` when absent. -/
def bucketRemove (k : Nat) : Bucket → Option (DictEntry × Bucket)
  | [] => none
  | e :: rest =>
    if e.key = k then some (e, rest)
    else match bucketRemove k rest with
         | some (e', rest') => some (e', e :: rest')
         | none => none

/-- Insert an entry at the head of bucket `idx` (the chain discipline of
dict.c: new entries are linked in front) and bump `used`. -/
def htInsert (t : Dictht) (idx : Nat) (e : DictEntry) : Dictht :=
  { t with table := t.table.set idx (e :: htBucket t idx)
         , used := t.used + 1 }

/-- Migrate one chain of `T[0]` into `T[1]`, entry by entry, each entry
re-linked at the head of its recomputed `T[1]` bucket. -/
def migrateChain (h : Nat → Nat) : Bucket → Dictht → Dictht
  | [], t1 => t1
  | e :: rest, t1 => migrateChain h rest (htInsert t1 (htIndex t1 (h e.key)) e)

/-- Index of the first non-empty bucket of a list, or `none`. -/
def findNonEmptyIdx : List Bucket → Option Nat
  | [] => none
  | b :: bs => if b.isEmpty then (findNonEmptyIdx bs).map (· + 1) else some 0

/-- First index `≥ i` whose bucket is non-empty, or `none`. -/
def firstNonEmptyFrom (tbl : List Bucket) (i : Nat) : Option Nat :=
  (findNonEmptyIdx (tbl.drop i)).map (i + ·)

/-- Modelled from the spec: the `while(n--)` body of `dictRehash`.  Each
iteration either finishes the rehash — when `T[0]` has no live entries its
buckets are freed, `T[1]` is promoted into `T[0]`, `T[1]` is cleared and
`rehashidx` becomes −1 — or migrates every entry of the first non-empty
bucket at index `≥ rehashidx` to `T[1]` and advances `rehashidx` past it.
Returns the dictionary and the C result (0: rehash complete, 1: more to
move). -/
def rehashLoop (h : Nat → Nat) : Nat → Dict → Dict × Nat
  | 0, d => (d, 1)
  | n + 1, d =>
    if d.ht0.used = 0 then
      (⟨d.ht1, emptyHt, -1, d.iterators⟩, 0)
    else
      match firstNonEmptyFrom d.ht0.table d.rehashidx.toNat with
      | none => (d, 1)
      | some idx =>
        let chain := htBucket d.ht0 idx
        let ht1' := migrateChain h chain d.ht1
        let ht0' := { d.ht0 with table := d.ht0.table.set idx []
                               , used := d.ht0.used - chain.length }
        rehashLoop h n ⟨ht0', ht1', ((idx + 1 : Nat) : Int), d.iterators⟩

/-- Modelled from the spec: `dictRehash d n` migrates up to `n` buckets.
It is a no-op while any safe iterator is live ("rehash is forbidden while
`iterators > 0`") and when the dictionary is not rehashing. -/
def dictRehash (h : Nat → Nat) (d : Dict) (n : Nat) : Dict × Nat :=
  if d.iterators ≠ 0 then (d, 0)
  else if ¬ dictIsRehashing d then (d, 0)
  else rehashLoop h n d

/-- Modelled from the spec: `_dictRehashStep` — the single-step rehash that
`add`, `find` and `delete` perform, suppressed while a safe iterator is
live. -/
def dictRehashStep (h : Nat → Nat) (d : Dict) : Dict :=
  if d.iterators = 0 then (dictRehash h d 1).1 else d

/-- Modelled from the spec: `dictRehashMilliseconds` calls
`dictRehash d 100` until the deadline or completion, returning the number
of 100-bucket batches performed.  The wall clock is embedded as a budget of
`ms` batches. -/
def dictRehashMilliseconds (h : Nat → Nat) : Nat → Dict → Dict × Nat
  | 0, d => (d, 0)
  | ms + 1, d =>
    let p := dictRehash h d 100
    if p.2 = 0 then (p.1, 0)
    else
      let q := dictRehashMilliseconds h ms p.1
      (q.1, q.2 + 1)

/-- Modelled from the spec: `_dictNextPower` — starting from the initial
size 4, double until reaching the requested size (64 doublings bound the
loop, as the C type does). -/
def nextPowerAux (n : Nat) : Nat → Nat → Nat
  | 0, i => i
  | fuel + 1, i => if n ≤ i then i else nextPowerAux n fuel (2 * i)

/-- Modelled from the spec: the next power of two `≥ max n 4`. -/
def dictNextPower (n : Nat) : Nat := nextPowerAux n 64 DICT_HT_INITIAL_SIZE

/-- A freshly allocated sub-table of `realsize` empty buckets. -/
def newHt (realsize : Nat) : Dictht :=
  ⟨List.replicate realsize [], realsize, realsize - 1, 0⟩

/-- Modelled from the spec: `dictExpand d n` fails (leaving the dictionary
unchanged) while rehashing or when `n` is below `T[0].used`; otherwise the
fresh table of `dictNextPower n` buckets replaces `T[0]` directly when
`T[0]` is empty (unallocated), else becomes `T[1]` with `rehashidx = 0`. -/
def dictExpand (d : Dict) (n : Nat) : Dict × Nat :=
  if dictIsRehashing d ∨ d.ht0.used > n then (d, DICT_ERR)
  else
    let ht := newHt (dictNextPower n)
    if d.ht0.size = 0 then ({ d with ht0 := ht }, DICT_OK)
    else ({ d with ht1 := ht, rehashidx := 0 }, DICT_OK)

/-- Modelled from the spec: `_dictExpandIfNeeded`, run before any insert.
While rehashing, nothing happens.  An unallocated `T[0]` grows to the
initial size.  Otherwise, when `used/size ≥ 1` and either the global resize
toggle is on or `used/size` exceeds the force ratio 5, the table grows to
`2 × used`. -/
def dictExpandIfNeeded (canResize : Bool) (d : Dict) : Dict :=
  if dictIsRehashing d then d
  else if d.ht0.size = 0 then (dictExpand d DICT_HT_INITIAL_SIZE).1
  else if d.ht0.used ≥ d.ht0.size ∧ (canResize ∨ d.ht0.used / d.ht0.size > 5) then
    (dictExpand d (d.ht0.used * 2)).1
  else d

/-- The key-existence probe of `_dictKeyIndex`: search the bucket for the
key's hash in `T[0]`, and also in `T[1]` when rehashing. -/
def dictKeyExists (h : Nat → Nat) (d : Dict) (k : Nat) : Bool :=
  (bucketFind k (htBucket d.ht0 (htIndex d.ht0 (h k)))).isSome ||
    (dictIsRehashing d &&
      (bucketFind k (htBucket d.ht1 (htIndex d.ht1 (h k)))).isSome)

/-- Modelled from the spec: `dictAdd` — perform one rehash step when
rehashing, run the growth policy, fail if the key is already present, and
otherwise link a fresh entry into `T[1]` when rehashing (inserts always go
to the new table) else into `T[0]`.  Returns the dictionary and whether the
insert happened (`DICT_OK`). -/
def dictAdd (h : Nat → Nat) (canResize : Bool) (d : Dict) (k v : Nat) :
    Dict × Bool :=
  let d1 := if dictIsRehashing d then dictRehashStep h d else d
  let d2 := dictExpandIfNeeded canResize d1
  if dictKeyExists h d2 k then (d2, false)
  else if dictIsRehashing d2 then
    ({ d2 with ht1 := htInsert d2.ht1 (htIndex d2.ht1 (h k)) ⟨k, v⟩ }, true)
  else
    ({ d2 with ht0 := htInsert d2.ht0 (htIndex d2.ht0 (h k)) ⟨k, v⟩ }, true)

/-- The lookup part of `dictFind`: search the key's bucket in `T[0]` first,
then — only while rehashing — the key's bucket in `T[1]`. -/
def dictFindSearch (h : Nat → Nat) (d : Dict) (k : Nat) : Option DictEntry :=
  match bucketFind k (htBucket d.ht0 (htIndex d.ht0 (h k))) with
  | some e => some e
  | none =>
    if dictIsRehashing d then bucketFind k (htBucket d.ht1 (htIndex d.ht1 (h k)))
    else none

/-- Modelled from the spec: `dictFind` — one rehash step when rehashing,
then the two-table search.  Returns the stepped dictionary and the entry. -/
def dictFind (h : Nat → Nat) (d : Dict) (k : Nat) : Dict × Option DictEntry :=
  let d1 := if dictIsRehashing d then dictRehashStep h d else d
  (d1, dictFindSearch h d1 k)

/-- Modelled from the spec: `dictDelete` — one rehash step when rehashing,
then unlink the key from its `T[0]` bucket, or, while rehashing, from its
`T[1]` bucket; `used` drops with the unlinked entry. -/
def dictDelete (h : Nat → Nat) (d : Dict) (k : Nat) : Dict × Bool :=
  let d1 := if dictIsRehashing d then dictRehashStep h d else d
  let i0 := htIndex d1.ht0 (h k)
  match bucketRemove k (htBucket d1.ht0 i0) with
  | some p =>
    ({ d1 with ht0 := { d1.ht0 with table := d1.ht0.table.set i0 p.2
                                  , used := d1.ht0.used - 1 } }, true)
  | none =>
    if dictIsRehashing d1 then
      let i1 := htIndex d1.ht1 (h k)
      match bucketRemove k (htBucket d1.ht1 i1) with
      | some p =>
        ({ d1 with ht1 := { d1.ht1 with table := d1.ht1.table.set i1 p.2
                                      , used := d1.ht1.used - 1 } }, true)
      | none => (d1, false)
    else (d1, false)

/-- Overwrite the value of every entry with key `k` (the dictionary holds
at most one) in both sub-tables, in place. -/
def dictSetValForKey (d : Dict) (k v : Nat) : Dict :=
  let upd : Bucket → Bucket :=
    List.map (fun e => if e.key = k then { e with v := v } else e)
  { d with ht0 := { d.ht0 with table := d.ht0.table.map upd }
         , ht1 := { d.ht1 with table := d.ht1.table.map upd } }

/-- Modelled from the spec: `dictReplace` — insert if absent (reporting the
insertion); otherwise overwrite the present entry's value, destructing the
old value first.  The value-lifecycle macro invocations are returned as the
event list. -/
def dictReplace (h : Nat → Nat) (canResize : Bool) (d : Dict) (k v : Nat) :
    Dict × Bool × List ValEvent :=
  let p := dictAdd h canResize d k v
  if p.2 then (p.1, true, [.valDup v])
  else
    match dictFindSearch h p.1 k with
    | some e => (dictSetValForKey p.1 k v, false, [.valDestructor e.v, .valDup v])
    | none => (p.1, false, [])

/-- Reverse the low `b` bits of a natural (bit `0` swaps with bit `b−1`). -/
def bitRev : Nat → Nat → Nat
  | 0, _ => 0
  | b + 1, v => (v % 2) * 2 ^ b + bitRev b (v / 2)

/-- Modelled from the spec: the reverse-binary increment of a scan cursor
against a table of `2^b` buckets — reverse the bits under the mask, add
one (wrapping), reverse again. -/
def scanNextCursor (b : Nat) (v : Nat) : Nat :=
  bitRev b ((bitRev b (v % 2 ^ b) + 1) % 2 ^ b)

/-- Fuel-driven structural binary logarithm (the fuel bounds the number of
halvings, so the kernel can evaluate it). -/
def log2fuel : Nat → Nat → Nat
  | 0, _ => 0
  | fuel + 1, n => if n ≤ 1 then 0 else log2fuel fuel (n / 2) + 1

/-- The bit width of a sub-table: the binary logarithm of its (power of
two) size. -/
def htBits (t : Dictht) : Nat := log2fuel t.size t.size

/-- Modelled from the spec: `dictScan`.  On an empty dictionary the cursor
collapses to 0.  Without rehash, the cursor's bucket in `T[0]` is emitted
and the cursor is reverse-binary-incremented under `T[0]`'s mask.  While
rehashing, the cursor's bucket in the smaller table is emitted, then every
bucket of the larger table whose low bits coincide with it, and the cursor
is reverse-binary-incremented under the larger table's mask.  Returns the
entries handed to the callback and the next cursor. -/
def dictScan (d : Dict) (v : Nat) : List DictEntry × Nat :=
  if dictSize d = 0 then ([], 0)
  else if ¬ dictIsRehashing d then
    (htBucket d.ht0 (v &&& d.ht0.sizemask), scanNextCursor (htBits d.ht0) v)
  else
    let s := if d.ht0.size ≤ d.ht1.size then d.ht0 else d.ht1
    let l := if d.ht0.size ≤ d.ht1.size then d.ht1 else d.ht0
    let base := v &&& s.sizemask
    ( htBucket s base ++
        (List.range (l.size / s.size)).flatMap (fun q => htBucket l (base + q * s.size))
    , scanNextCursor (htBits l) v )

/-- Iterate the scan loop over a list of dictionary states (the table may
have been mutated arbitrarily between calls), threading the cursor;
returns the per-call emission lists and the final cursor. -/
def scanRun : List Dict → Nat → List (List DictEntry) × Nat
  | [], v => ([], v)
  | d :: ds, v =>
    let p := dictScan d v
    let q := scanRun ds p.2
    (p.1 :: q.1, q.2)

/- ------------------- dict well-formedness ------------------- -/

/-- All entries of a sub-table, bucket by bucket. -/
def htEntries (t : Dictht) : List DictEntry := t.table.flatten

/-- All entries of the dictionary. -/
def dictEntries (d : Dict) : List DictEntry := htEntries d.ht0 ++ htEntries d.ht1

/-- All keys of the dictionary. -/
def dictKeys (d : Dict) : List Nat := (dictEntries d).map DictEntry.key

/-- Well-formedness of one sub-table under hash `h`: the `size` field
matches the bucket array, is zero or a power of two, `sizemask = size − 1`,
`used` counts the entries, and every entry sits in the bucket its hash
selects. -/
def htWF (h : Nat → Nat) (t : Dictht) : Prop :=
  t.size = t.table.length ∧
  (t.size = 0 ∨ ∃ b < t.size, t.size = 2 ^ b) ∧
  t.sizemask = t.size - 1 ∧
  t.used = (t.table.map List.length).sum ∧
  ∀ i < t.table.length, ∀ e ∈ t.table.getD i [], htIndex t (h e.key) = i

instance (h : Nat → Nat) (t : Dictht) : Decidable (htWF h t) := by
  unfold htWF; infer_instance

/-- Well-formedness of a dictionary under hash `h`: both sub-tables are
well-formed, keys are pairwise distinct, and the rehash state is
consistent — `rehashidx = −1` means `T[1]` is absent, while a live rehash
means both tables are allocated, `rehashidx` is within `T[0]` and every
`T[0]` bucket before it has been drained. -/
def dictWF (h : Nat → Nat) (d : Dict) : Prop :=
  htWF h d.ht0 ∧ htWF h d.ht1 ∧
  (dictKeys d).Nodup ∧
  (if d.rehashidx = -1 then d.ht1 = emptyHt
   else 0 ≤ d.rehashidx ∧ d.rehashidx.toNat ≤ d.ht0.size ∧
     d.ht0.size ≠ 0 ∧ d.ht1.size ≠ 0 ∧
     ∀ i < d.rehashidx.toNat, d.ht0.table.getD i [] = [])

instance (h : Nat → Nat) (d : Dict) : Decidable (dictWF h d) := by
  unfold dictWF; infer_instance

/- ===================== helper lemmas ===================== -/

lemma getD_set_self {α : Type} (l : List α) (i : Nat) (a d : α) (h : i < l.length) :
    (l.set i a).getD i d = a := by
  induction l generalizing i with
  | nil => simp at h
  | cons x xs ih =>
    cases i with
    | zero => rfl
    | succ j => simpa using ih j (by simpa using h)

lemma getD_set_ne {α : Type} (l : List α) (i j : Nat) (a d : α) (h : j ≠ i) :
    (l.set i a).getD j d = l.getD j d := by
  induction l generalizing i j with
  | nil => rfl
  | cons x xs ih =>
    cases i with
    | zero => cases j with
      | zero => exact absurd rfl h
      | succ j' => rfl
    | succ i' => cases j with
      | zero => rfl
      | succ j' => simpa using ih i' j' (by omega)

lemma getD_append_left {α : Type} (l l' : List α) (i : Nat) (d : α) (h : i < l.length) :
    (l ++ l').getD i d = l.getD i d := by
  induction l generalizing i with
  | nil => simp at h
  | cons x xs ih =>
    cases i with
    | zero => rfl
    | succ j => simpa using ih j (by simpa using h)

lemma take_append_left {α : Type} (l l' : List α) (n : Nat) (h : n ≤ l.length) :
    (l ++ l').take n = l.take n := by
  induction l generalizing n with
  | nil =>
    have hn : n = 0 := by simpa using h
    subst hn; rfl
  | cons x xs ih =>
    cases n with
    | zero => rfl
    | succ m => simpa using ih m (by simpa using h)

/- ===================== claims C3, C5, C8, C9, C10 ===================== -/

/-- C8: `sdsMakeRoomFor s add` returns `s` unchanged when `free ≥ add`;
otherwise it reallocates so the usable length becomes `len + add` and then
over-allocates — doubling it below 1 MiB (`SDS_MAX_PREALLOC`) and adding
1 MiB above — with the stored bytes and `len` unchanged either way. -/
theorem sdsMakeRoomFor_spec (s : Sdshdr) (addlen : Nat) (hwf : sdsWF s) :
    (addlen ≤ s.free → sdsMakeRoomFor s addlen = s) ∧
    (s.free < addlen →
      (sdsMakeRoomFor s addlen).len = s.len ∧
      (sdsMakeRoomFor s addlen).buf.take s.len = s.buf.take s.len ∧
      (sdsMakeRoomFor s addlen).len + (sdsMakeRoomFor s addlen).free =
        (if s.len + addlen < SDS_MAX_PREALLOC then 2 * (s.len + addlen)
         else s.len + addlen + SDS_MAX_PREALLOC) ∧
      sdsWF (sdsMakeRoomFor s addlen)) := by
  obtain ⟨hlen, hsent⟩ := hwf
  constructor
  · intro hle
    unfold sdsMakeRoomFor
    rw [if_pos hle]
  · intro hlt
    have hnotle : ¬ addlen ≤ s.free := by omega
    have hres : sdsMakeRoomFor s addlen =
        { len := s.len
        , free := (if s.len + addlen < SDS_MAX_PREALLOC then 2 * (s.len + addlen)
                   else s.len + addlen + SDS_MAX_PREALLOC) - s.len
        , buf := s.buf ++ List.replicate
            ((if s.len + addlen < SDS_MAX_PREALLOC then 2 * (s.len + addlen)
              else s.len + addlen + SDS_MAX_PREALLOC) + 1 - s.buf.length) 0 } := by
      unfold sdsMakeRoomFor
      rw [if_neg hnotle]
    set N := if s.len + addlen < SDS_MAX_PREALLOC then 2 * (s.len + addlen)
             else s.len + addlen + SDS_MAX_PREALLOC with hN
    have hNge : s.len + addlen ≤ N := by
      rw [hN]; split <;> omega
    refine ⟨?_, ?_, ?_, ?_⟩
    · rw [hres]
    · rw [hres]
      exact take_append_left _ _ _ (by omega)
    · rw [hres]
      show s.len + (N - s.len) = N
      omega
    · rw [hres]
      unfold sdsWF
      refine ⟨?_, ?_⟩
      · show (s.buf ++ List.replicate (N + 1 - s.buf.length) 0).length
            = s.len + (N - s.len) + 1
        rw [List.length_append, List.length_replicate]
        omega
      · show (s.buf ++ List.replicate (N + 1 - s.buf.length) 0).getD s.len 1 = 0
        rw [getD_append_left _ _ _ _ (by omega)]
        exact hsent

/-- C9: `sdsIncrLen s incr` (with `incr` possibly negative) moves the
used/free boundary by `incr` without reallocation, rewrites the sentinel
zero at the new `len`, touches no other byte, and fails — leaving the
string unchanged — when the move would give `len < 0` or `free < 0`. -/
theorem sdsIncrLen_spec (s : Sdshdr) (incr : Int) (hwf : sdsWF s) :
    ((s.len : Int) + incr < 0 ∨ (s.free : Int) - incr < 0 →
      sdsIncrLen s incr = none) ∧
    (0 ≤ (s.len : Int) + incr → 0 ≤ (s.free : Int) - incr →
      ∃ s', sdsIncrLen s incr = some s' ∧
        (s'.len : Int) = (s.len : Int) + incr ∧
        (s'.free : Int) = (s.free : Int) - incr ∧
        s'.buf.length = s.buf.length ∧
        s'.buf.getD s'.len 1 = 0 ∧
        (∀ i, i ≠ s'.len → s'.buf.getD i 1 = s.buf.getD i 1) ∧
        sdsWF s') := by
  obtain ⟨hlen, hsent⟩ := hwf
  constructor
  · intro hneg
    unfold sdsIncrLen
    rw [if_pos hneg]
  · intro h1 h2
    have hcond : ¬ ((s.len : Int) + incr < 0 ∨ (s.free : Int) - incr < 0) := by
      omega
    refine ⟨_, by unfold sdsIncrLen; rw [if_neg hcond], ?_, ?_, ?_, ?_, ?_, ?_⟩
    · simp only
      omega
    · simp only
      omega
    · simp only [List.length_set]
    · simp only
      exact getD_set_self _ _ _ _ (by omega)
    · intro i hi
      simp only at hi ⊢
      exact getD_set_ne _ _ _ _ _ hi
    · constructor
      · simp only [List.length_set]
        omega
      · simp only
        exact getD_set_self _ _ _ _ (by omega)

/-- C10: the entry's value union stores no discriminant — a signed 64-bit
integer stored with `dictSetSignedIntegerVal` reads back through
`dictGetUnsignedIntegerVal` as the value two's-complement-reinterpreted
modulo `2^64` (and back through the signed accessor as itself); every value
accessor depends only on the stored pattern, not on which variant was last
stored; and the scalar-integer setters invoke neither `valDup` nor
`valDestructor`. -/
theorem dict_value_union_spec (e e' : DictEntry) (val : Int) (u : Nat)
    (hlo : -(2 : Int) ^ 63 ≤ val) (hhi : val < 2 ^ 63) (hv : e.v = e'.v) :
    ((dictGetUnsignedIntegerVal (dictSetSignedIntegerVal e val).1 : Int) =
        val % 2 ^ 64) ∧
    dictGetSignedIntegerVal (dictSetSignedIntegerVal e val).1 = val ∧
    (dictSetSignedIntegerVal e val).2 = [] ∧
    (dictSetUnsignedIntegerVal e u).2 = [] ∧
    dictGetUnsignedIntegerVal e = dictGetUnsignedIntegerVal e' ∧
    dictGetSignedIntegerVal e = dictGetSignedIntegerVal e' ∧
    dictGetVal e = dictGetVal e' := by
  have hmod : 0 ≤ val % 2 ^ 64 := Int.emod_nonneg val (by norm_num)
  refine ⟨?_, ?_, rfl, rfl, ?_, ?_, ?_⟩
  · simp only [dictGetUnsignedIntegerVal, dictSetSignedIntegerVal]
    exact Int.toNat_of_nonneg hmod
  · simp only [dictGetSignedIntegerVal, dictSetSignedIntegerVal]
    have hcast : (((val % 2 ^ 64).toNat : Nat) : Int) = val % 2 ^ 64 :=
      Int.toNat_of_nonneg hmod
    have hev : val % 2 ^ 64 = if 0 ≤ val then val else val + 2 ^ 64 := by
      split <;> omega
    split
    · rename_i hsmall
      rw [hcast, hev]
      split <;> rename_i hvpos
      · rfl
      · exfalso
        have : ((val % 2 ^ 64).toNat : Int) < 2 ^ 63 := by exact_mod_cast hsmall
        rw [hcast, hev, if_neg hvpos] at this
        omega
    · rename_i hbig
      rw [hcast, hev]
      split <;> rename_i hvpos
      · exfalso
        have : ¬ ((val % 2 ^ 64).toNat : Int) < 2 ^ 63 := by exact_mod_cast hbig
        rw [hcast, hev, if_pos hvpos] at this
        omega
      · omega
  · simp [dictGetUnsignedIntegerVal, hv]
  · simp [dictGetSignedIntegerVal, hv]
  · simp [dictGetVal, hv]

/-- Witness for C10 at a concrete entry and value. -/
theorem dict_value_union_spec_witness :
    (-(2 : Int) ^ 63 ≤ -7) ∧ ((-7 : Int) < 2 ^ 63) ∧
      ((⟨0, 5⟩ : DictEntry).v = (⟨1, 5⟩ : DictEntry).v) ∧
    (((dictGetUnsignedIntegerVal (dictSetSignedIntegerVal ⟨0, 5⟩ (-7)).1 : Int) =
        (-7 : Int) % 2 ^ 64) ∧
      dictGetSignedIntegerVal (dictSetSignedIntegerVal ⟨0, 5⟩ (-7)).1 = -7 ∧
      (dictSetSignedIntegerVal (⟨0, 5⟩ : DictEntry) (-7)).2 = [] ∧
      (dictSetUnsignedIntegerVal (⟨0, 5⟩ : DictEntry) 3).2 = [] ∧
      dictGetUnsignedIntegerVal ⟨0, 5⟩ = dictGetUnsignedIntegerVal ⟨1, 5⟩ ∧
      dictGetSignedIntegerVal ⟨0, 5⟩ = dictGetSignedIntegerVal ⟨1, 5⟩ ∧
      dictGetVal ⟨0, 5⟩ = dictGetVal ⟨1, 5⟩) :=
  ⟨by norm_num, by norm_num, rfl,
    dict_value_union_spec ⟨0, 5⟩ ⟨1, 5⟩ (-7) 3 (by norm_num) (by norm_num) rfl⟩

/-- Witness for C8 at a concrete string (3 used bytes, no free space). -/
theorem sdsMakeRoomFor_spec_witness :
    sdsWF ⟨3, 0, [7, 8, 9, 0]⟩ ∧
    ((2 ≤ (⟨3, 0, [7, 8, 9, 0]⟩ : Sdshdr).free →
        sdsMakeRoomFor ⟨3, 0, [7, 8, 9, 0]⟩ 2 = ⟨3, 0, [7, 8, 9, 0]⟩) ∧
      ((⟨3, 0, [7, 8, 9, 0]⟩ : Sdshdr).free < 2 →
        (sdsMakeRoomFor ⟨3, 0, [7, 8, 9, 0]⟩ 2).len = 3 ∧
        (sdsMakeRoomFor ⟨3, 0, [7, 8, 9, 0]⟩ 2).buf.take 3 =
          ([7, 8, 9, 0] : List Nat).take 3 ∧
        (sdsMakeRoomFor ⟨3, 0, [7, 8, 9, 0]⟩ 2).len +
            (sdsMakeRoomFor ⟨3, 0, [7, 8, 9, 0]⟩ 2).free =
          (if 3 + 2 < SDS_MAX_PREALLOC then 2 * (3 + 2)
           else 3 + 2 + SDS_MAX_PREALLOC) ∧
        sdsWF (sdsMakeRoomFor ⟨3, 0, [7, 8, 9, 0]⟩ 2))) :=
  ⟨by decide, sdsMakeRoomFor_spec ⟨3, 0, [7, 8, 9, 0]⟩ 2 (by decide)⟩

/-- Witness for C9 at a concrete string and a positive increment. -/
theorem sdsIncrLen_spec_witness :
    sdsWF ⟨3, 2, [7, 8, 9, 0, 5, 6]⟩ ∧
    ((((3 : Nat) : Int) + 2 < 0 ∨ ((2 : Nat) : Int) - 2 < 0 →
        sdsIncrLen ⟨3, 2, [7, 8, 9, 0, 5, 6]⟩ 2 = none) ∧
      (0 ≤ ((3 : Nat) : Int) + 2 → 0 ≤ ((2 : Nat) : Int) - 2 →
        ∃ s', sdsIncrLen ⟨3, 2, [7, 8, 9, 0, 5, 6]⟩ 2 = some s' ∧
          (s'.len : Int) = ((3 : Nat) : Int) + 2 ∧
          (s'.free : Int) = ((2 : Nat) : Int) - 2 ∧
          s'.buf.length = ([7, 8, 9, 0, 5, 6] : List Nat).length ∧
          s'.buf.getD s'.len 1 = 0 ∧
          (∀ i, i ≠ s'.len →
            s'.buf.getD i 1 = ([7, 8, 9, 0, 5, 6] : List Nat).getD i 1) ∧
          sdsWF s')) :=
  ⟨by decide, by
    have := sdsIncrLen_spec ⟨3, 2, [7, 8, 9, 0, 5, 6]⟩ 2 (by decide)
    exact this⟩

/-- C3: while a safe iterator is live (`iterators > 0`) no rehash
migration occurs — the per-operation single-step rehash is a no-op, the
explicit `dictRehash`/`dictRehashMilliseconds` calls are no-ops, and the
dictionary `find` threads out is exactly its input. -/
theorem dict_iterators_suppress_rehash (h : Nat → Nat) (d : Dict)
    (n ms k : Nat) (hit : 0 < d.iterators) :
    dictRehashStep h d = d ∧
    dictRehash h d n = (d, 0) ∧
    dictRehashMilliseconds h ms d = (d, 0) ∧
    (dictFind h d k).1 = d := by
  have hr : ∀ m, dictRehash h d m = (d, 0) := by
    intro m
    unfold dictRehash
    rw [if_pos (by omega)]
  have hstep : dictRehashStep h d = d := by
    unfold dictRehashStep
    rw [if_neg (by omega)]
  refine ⟨hstep, hr n, ?_, ?_⟩
  · cases ms with
    | zero => rfl
    | succ m =>
      show (if (dictRehash h d 100).2 = 0 then ((dictRehash h d 100).1, 0)
            else _) = (d, 0)
      rw [hr 100]
      simp
  · show (if dictIsRehashing d then dictRehashStep h d else d, _).1 = d
    rw [hstep, ite_self]

/-- Witness for C3 at a concrete rehashing dictionary with one live safe
iterator. -/
theorem dict_iterators_suppress_rehash_witness :
    0 < (⟨⟨[[⟨1, 2⟩]], 1, 0, 1⟩, ⟨[[], []], 2, 1, 0⟩, 0, 1⟩ : Dict).iterators ∧
    (dictRehashStep id ⟨⟨[[⟨1, 2⟩]], 1, 0, 1⟩, ⟨[[], []], 2, 1, 0⟩, 0, 1⟩ =
        ⟨⟨[[⟨1, 2⟩]], 1, 0, 1⟩, ⟨[[], []], 2, 1, 0⟩, 0, 1⟩ ∧
      dictRehash id ⟨⟨[[⟨1, 2⟩]], 1, 0, 1⟩, ⟨[[], []], 2, 1, 0⟩, 0, 1⟩ 5 =
        (⟨⟨[[⟨1, 2⟩]], 1, 0, 1⟩, ⟨[[], []], 2, 1, 0⟩, 0, 1⟩, 0) ∧
      dictRehashMilliseconds id 3 ⟨⟨[[⟨1, 2⟩]], 1, 0, 1⟩, ⟨[[], []], 2, 1, 0⟩, 0, 1⟩ =
        (⟨⟨[[⟨1, 2⟩]], 1, 0, 1⟩, ⟨[[], []], 2, 1, 0⟩, 0, 1⟩, 0) ∧
      (dictFind id ⟨⟨[[⟨1, 2⟩]], 1, 0, 1⟩, ⟨[[], []], 2, 1, 0⟩, 0, 1⟩ 1).1 =
        ⟨⟨[[⟨1, 2⟩]], 1, 0, 1⟩, ⟨[[], []], 2, 1, 0⟩, 0, 1⟩) :=
  ⟨by decide,
    dict_iterators_suppress_rehash id ⟨⟨[[⟨1, 2⟩]], 1, 0, 1⟩, ⟨[[], []], 2, 1, 0⟩, 0, 1⟩
      5 3 1 (by decide)⟩

lemma nextPowerAux_isLeast (n : Nat) :
    ∀ (fuel i j : Nat), i = 2 ^ j → 4 ≤ i →
      (∀ m, (∃ k, m = 2 ^ k) → 4 ≤ m → m < i → m < n) →
      n ≤ i * 2 ^ fuel →
      IsLeast {m | (∃ k, m = 2 ^ k) ∧ n ≤ m ∧ 4 ≤ m} (nextPowerAux n fuel i) := by
  intro fuel
  induction fuel with
  | zero =>
    intro i j hij h4 hbelow hfuel
    show IsLeast _ i
    refine ⟨⟨⟨j, hij⟩, by simpa using hfuel, h4⟩, ?_⟩
    rintro m ⟨hpow, hnm, h4m⟩
    by_contra hlt
    exact absurd (hbelow m hpow h4m (by omega)) (by omega)
  | succ fuel ih =>
    intro i j hij h4 hbelow hfuel
    show IsLeast _ (if n ≤ i then i else nextPowerAux n fuel (2 * i))
    split
    · rename_i hni
      refine ⟨⟨⟨j, hij⟩, hni, h4⟩, ?_⟩
      rintro m ⟨hpow, hnm, h4m⟩
      by_contra hlt
      exact absurd (hbelow m hpow h4m (by omega)) (by omega)
    · rename_i hni
      refine ih (2 * i) (j + 1) (by rw [hij]; ring) (by omega) ?_ ?_
      · rintro m ⟨k, hk⟩ h4m hm2i
        rcases lt_or_le m i with hmi | hmi
        · exact hbelow m ⟨k, hk⟩ h4m hmi
        · have hjk : j ≤ k := by
            have := hmi
            rw [hij, hk] at this
            exact (Nat.pow_le_pow_iff_right (by norm_num)).mp this
          have hkj : k < j + 1 := by
            have := hm2i
            rw [hij, hk] at this
            have h2 : (2 : Nat) * 2 ^ j = 2 ^ (j + 1) := by ring
            rw [h2] at this
            exact (Nat.pow_lt_pow_iff_right (by norm_num)).mp this
          have : m = i := by
            rw [hk, hij]
            congr 1
            omega
          omega
      · calc n ≤ i * 2 ^ (fuel + 1) := hfuel
          _ = 2 * i * 2 ^ fuel := by ring

lemma dictNextPower_isLeast (n : Nat) (hn : n ≤ 2 ^ 64) :
    IsLeast {m | (∃ k, m = 2 ^ k) ∧ n ≤ m ∧ 4 ≤ m} (dictNextPower n) := by
  unfold dictNextPower DICT_HT_INITIAL_SIZE
  refine nextPowerAux_isLeast n 64 4 2 (by norm_num) (by norm_num) ?_ ?_
  · intro m _ h4m hm4
    omega
  · calc n ≤ 2 ^ 64 := hn
      _ ≤ 4 * 2 ^ 64 := by omega

/-- C5: `dictExpand d n` fails with `DICT_ERR`, leaving the dictionary
unchanged, while rehashing or when `n < T[0].used`; otherwise it builds a
table of exactly the least power of two `≥ max(n, 4, T[0].used)` buckets
and installs it directly as `T[0]` (no rehash started, `rehashidx` still
−1) when `T[0]` is empty, else as `T[1]` with `rehashidx = 0`. -/
theorem dictExpand_spec (d : Dict) (n : Nat) (hn : n ≤ 2 ^ 64) :
    ((dictIsRehashing d = true ∨ n < d.ht0.used) →
      dictExpand d n = (d, DICT_ERR)) ∧
    (dictIsRehashing d = false → d.ht0.used ≤ n →
      IsLeast {m | (∃ k, m = 2 ^ k) ∧ n ≤ m ∧ DICT_HT_INITIAL_SIZE ≤ m ∧
          d.ht0.used ≤ m} (dictNextPower n) ∧
      (d.ht0.size = 0 →
        dictExpand d n = ({ d with ht0 := newHt (dictNextPower n) }, DICT_OK) ∧
        (dictExpand d n).1.rehashidx = d.rehashidx) ∧
      (d.ht0.size ≠ 0 →
        dictExpand d n =
          ({ d with ht1 := newHt (dictNextPower n), rehashidx := 0 }, DICT_OK))) := by
  constructor
  · intro hfail
    unfold dictExpand
    rw [if_pos]
    rcases hfail with hre | hus
    · exact Or.inl (by simp [hre])
    · exact Or.inr (by omega)
  · intro hnore hused
    have hcond : ¬ (dictIsRehashing d = true ∨ d.ht0.used > n) := by
      simp [hnore]; omega
    obtain ⟨⟨hpow, hge, h4⟩, hmin⟩ := dictNextPower_isLeast n hn
    refine ⟨⟨⟨hpow, hge, h4, by omega⟩, ?_⟩, ?_, ?_⟩
    · rintro m ⟨hp, hm1, hm2, _⟩
      exact hmin ⟨hp, hm1, hm2⟩
    · intro hsz
      constructor
      · unfold dictExpand
        rw [if_neg hcond, if_pos hsz]
      · unfold dictExpand
        rw [if_neg hcond, if_pos hsz]
    · intro hsz
      unfold dictExpand
      rw [if_neg hcond, if_neg hsz]

/-- Witness for C5 on a concrete non-rehashing dictionary. -/
theorem dictExpand_spec_witness :
    (10 : Nat) ≤ 2 ^ 64 ∧
    ((dictIsRehashing dictCreate = true ∨ 10 < dictCreate.ht0.used →
        dictExpand dictCreate 10 = (dictCreate, DICT_ERR)) ∧
      (dictIsRehashing dictCreate = false → dictCreate.ht0.used ≤ 10 →
        IsLeast {m | (∃ k, m = 2 ^ k) ∧ 10 ≤ m ∧ DICT_HT_INITIAL_SIZE ≤ m ∧
            dictCreate.ht0.used ≤ m} (dictNextPower 10) ∧
        (dictCreate.ht0.size = 0 →
          dictExpand dictCreate 10 =
            ({ dictCreate with ht0 := newHt (dictNextPower 10) }, DICT_OK) ∧
          (dictExpand dictCreate 10).1.rehashidx = dictCreate.rehashidx) ∧
        (dictCreate.ht0.size ≠ 0 →
          dictExpand dictCreate 10 =
            ({ dictCreate with
                ht1 := newHt (dictNextPower 10)
                rehashidx := 0 }, DICT_OK)))) :=
  ⟨by norm_num, dictExpand_spec dictCreate 10 (by norm_num)⟩

lemma mem_intsetInsertSorted (v y : Int) (l : List Int) :
    y ∈ intsetInsertSorted v l ↔ y = v ∨ y ∈ l := by
  induction l with
  | nil => simp [intsetInsertSorted]
  | cons x xs ih =>
    unfold intsetInsertSorted
    split
    · simp
    · simp only [List.mem_cons, ih]
      tauto

lemma pairwise_intsetInsertSorted (v : Int) (l : List Int)
    (hs : l.Pairwise (· < ·)) (hv : v ∉ l) :
    (intsetInsertSorted v l).Pairwise (· < ·) := by
  induction l with
  | nil => simp [intsetInsertSorted]
  | cons x xs ih =>
    obtain ⟨hx, hxs⟩ := List.pairwise_cons.mp hs
    unfold intsetInsertSorted
    split
    · rename_i hvx
      refine List.pairwise_cons.mpr ⟨?_, hs⟩
      intro y hy
      rcases List.mem_cons.mp hy with rfl | hy'
      · exact hvx
      · exact lt_trans hvx (hx y hy')
    · rename_i hvx
      have hxv : x < v := by
        rcases lt_trichotomy x v with hlt | heq | hgt
        · exact hlt
        · exact absurd (heq ▸ List.mem_cons_self x xs) hv
        · exact absurd hgt hvx
      refine List.pairwise_cons.mpr ⟨?_, ih hxs (fun hm => hv (List.mem_cons_of_mem x hm))⟩
      intro y hy
      rcases (mem_intsetInsertSorted v y xs).mp hy with rfl | hy'
      · exact hxv
      · exact hx y hy'

lemma foldr_max_map_insertSorted (f : Int → Nat) (v : Int) (l : List Int)
    (i : Nat) :
    ((intsetInsertSorted v l).map f).foldr max i =
      max (f v) ((l.map f).foldr max i) := by
  induction l with
  | nil => simp [intsetInsertSorted]
  | cons x xs ih =>
    unfold intsetInsertSorted
    split
    · simp [List.foldr_cons]
    · simp only [List.map_cons, List.foldr_cons, ih]
      rw [Nat.max_left_comm]

lemma le_foldr_max_map (f : Int → Nat) (l : List Int) (i : Nat) :
    ∀ x ∈ l, f x ≤ (l.map f).foldr max i := by
  induction l with
  | nil => intro x hx; simp at hx
  | cons y ys ih =>
    intro x hx
    rcases List.mem_cons.mp hx with rfl | hx'
    · simp only [List.map_cons, List.foldr_cons]
      exact Nat.le_max_left _ _
    · simp only [List.map_cons, List.foldr_cons]
      exact le_trans (ih x hx') (Nat.le_max_right _ _)

lemma valueEncoding_lt_means_extreme (x v : Int)
    (h : intsetValueEncoding x < intsetValueEncoding v) :
    (v < 0 → v < x) ∧ (0 ≤ v → x < v) := by
  unfold intsetValueEncoding INTSET_ENC_INT16 INTSET_ENC_INT32 INTSET_ENC_INT64 at h
  split_ifs at h <;> constructor <;> intro hv <;> omega

lemma foldr_max_absorb (L : List Nat) (a i : Nat) :
    L.foldr max (max a i) = max a (L.foldr max i) := by
  induction L with
  | nil => rfl
  | cons x xs ih => simp only [List.foldr_cons, ih, Nat.max_left_comm]

/-- C7: intset mutations preserve strict ascending order (hence no
duplicates) and the minimal-encoding invariant — except that `remove`
keeps the encoding unchanged (never downgrading, still wide enough) — and
an `add` of a value wider than the current encoding sets the encoding to
that value's width and inserts it at position 0 (as the new minimum, when
negative) or at position `length` (as the new maximum), keeping every
existing element and their order. -/
theorem intset_mutations_preserve_invariants (is : Intset) (v : Int)
    (hs : intsetSorted is) (hmin : intsetMinimalEncoding is) :
    (intsetSorted (intsetAdd is v).1 ∧ intsetMinimalEncoding (intsetAdd is v).1) ∧
    (intsetSorted (intsetRemove is v).1 ∧
      (intsetRemove is v).1.encoding = is.encoding ∧
      intsetEncodingFits (intsetRemove is v).1) ∧
    (is.encoding < intsetValueEncoding v →
      (intsetAdd is v).1.encoding = intsetValueEncoding v ∧
      (intsetAdd is v).1.contents =
        (if v < 0 then v :: is.contents else is.contents ++ [v]) ∧
      (v < 0 → ∀ x ∈ is.contents, v < x) ∧
      (0 ≤ v → ∀ x ∈ is.contents, x < v)) := by
  unfold intsetMinimalEncoding at hmin
  have hfits : intsetEncodingFits is := by
    intro x hx
    rw [hmin]
    exact le_foldr_max_map intsetValueEncoding is.contents INTSET_ENC_INT16 x hx
  have hextreme : is.encoding < intsetValueEncoding v →
      (v < 0 → ∀ x ∈ is.contents, v < x) ∧
      (0 ≤ v → ∀ x ∈ is.contents, x < v) := by
    intro hup
    constructor
    · intro hneg x hx
      exact (valueEncoding_lt_means_extreme x v (lt_of_le_of_lt (hfits x hx) hup)).1 hneg
    · intro hpos x hx
      exact (valueEncoding_lt_means_extreme x v (lt_of_le_of_lt (hfits x hx) hup)).2 hpos
  refine ⟨?_, ?_, ?_⟩
  · unfold intsetAdd
    by_cases hup : is.encoding < intsetValueEncoding v
    · rw [if_pos hup]
      constructor
      · show (if v < 0 then v :: is.contents else is.contents ++ [v]).Pairwise (· < ·)
        split
        · rename_i hneg
          exact List.pairwise_cons.mpr ⟨(hextreme hup).1 hneg, hs⟩
        · rename_i hpos
          refine List.pairwise_append.mpr ⟨hs, List.pairwise_singleton _ _, ?_⟩
          intro x hx y hy
          rw [List.mem_singleton.mp hy]
          exact (hextreme hup).2 (by omega) x hx
      · show intsetValueEncoding v =
          (((if v < 0 then v :: is.contents else is.contents ++ [v]).map
            intsetValueEncoding).foldr max INTSET_ENC_INT16)
        split
        · simp only [List.map_cons, List.foldr_cons, ← hmin]
          omega
        · rw [List.map_append, List.foldr_append]
          simp only [List.map_cons, List.map_nil, List.foldr_cons, List.foldr_nil]
          rw [foldr_max_absorb, ← hmin]
          omega
    · rw [if_neg hup]
      by_cases hmem : v ∈ is.contents
      · rw [if_pos hmem]
        exact ⟨hs, hmin⟩
      · rw [if_neg hmem]
        constructor
        · exact pairwise_intsetInsertSorted v is.contents hs hmem
        · show is.encoding =
            ((intsetInsertSorted v is.contents).map intsetValueEncoding).foldr
              max INTSET_ENC_INT16
          rw [foldr_max_map_insertSorted, ← hmin]
          omega
  · unfold intsetRemove
    split
    · rename_i hc
      refine ⟨?_, rfl, ?_⟩
      · exact List.Pairwise.sublist (List.erase_sublist _ _) hs
      · intro x hx
        exact hfits x (List.mem_of_mem_erase hx)
    · exact ⟨hs, rfl, hfits⟩
  · intro hup
    unfold intsetAdd
    rw [if_pos hup]
    exact ⟨rfl, rfl, (hextreme hup).1, (hextreme hup).2⟩

/-- Witness for C7: the spec's own upgrade scenario, adding 70000 to the
16-bit set `[1, 7, 42]`. -/
theorem intset_mutations_preserve_invariants_witness :
    intsetSorted ⟨2, [1, 7, 42]⟩ ∧ intsetMinimalEncoding ⟨2, [1, 7, 42]⟩ ∧
    ((intsetSorted (intsetAdd ⟨2, [1, 7, 42]⟩ 70000).1 ∧
        intsetMinimalEncoding (intsetAdd ⟨2, [1, 7, 42]⟩ 70000).1) ∧
      (intsetSorted (intsetRemove ⟨2, [1, 7, 42]⟩ 70000).1 ∧
        (intsetRemove ⟨2, [1, 7, 42]⟩ 70000).1.encoding =
          (⟨2, [1, 7, 42]⟩ : Intset).encoding ∧
        intsetEncodingFits (intsetRemove ⟨2, [1, 7, 42]⟩ 70000).1) ∧
      ((⟨2, [1, 7, 42]⟩ : Intset).encoding < intsetValueEncoding 70000 →
        (intsetAdd ⟨2, [1, 7, 42]⟩ 70000).1.encoding = intsetValueEncoding 70000 ∧
        (intsetAdd ⟨2, [1, 7, 42]⟩ 70000).1.contents =
          (if (70000 : Int) < 0 then 70000 :: [1, 7, 42] else [1, 7, 42] ++ [70000]) ∧
        ((70000 : Int) < 0 → ∀ x ∈ ([1, 7, 42] : List Int), (70000 : Int) < x) ∧
        ((0 : Int) ≤ 70000 → ∀ x ∈ ([1, 7, 42] : List Int), x < 70000))) :=
  ⟨by decide, by decide,
    intset_mutations_preserve_invariants ⟨2, [1, 7, 42]⟩ 70000 (by decide) (by decide)⟩

/- ------------------- dict proof infrastructure ------------------- -/

/-- The observable content of an entry: its key/value pair. -/
def entryPair (e : DictEntry) : Nat × Nat := (e.key, e.v)

/-- The key/value pairs held by a dictionary. -/
def dictPairs (d : Dict) : List (Nat × Nat) := (dictEntries d).map entryPair

lemma mem_getD_flatten {α : Type} (l : List (List α)) (i : Nat) (e : α)
    (h : e ∈ l.getD i []) : e ∈ l.flatten := by
  by_cases hi : i < l.length
  · have hmem : l.getD i [] ∈ l := by
      rw [List.getD_eq_getElem?_getD, List.getElem?_eq_getElem hi]
      exact List.getElem_mem hi
    exact List.mem_flatten.mpr ⟨_, hmem, h⟩
  · rw [List.getD_eq_getElem?_getD, List.getElem?_eq_none (by omega)] at h
    simp at h

lemma flatten_set_perm {α : Type} (l : List (List α)) (i : Nat) (b : List α)
    (hi : i < l.length) :
    List.Perm ((l.set i b).flatten ++ l.getD i []) (l.flatten ++ b) := by
  induction l generalizing i with
  | nil => simp at hi
  | cons x xs ih =>
    cases i with
    | zero =>
      show List.Perm ((b ++ xs.flatten) ++ x) ((x ++ xs.flatten) ++ b)
      refine List.Perm.trans List.perm_append_comm ?_
      rw [List.append_assoc]
      exact List.Perm.append_left x List.perm_append_comm
    | succ j =>
      show List.Perm ((x ++ (xs.set j b).flatten) ++ xs.getD j [])
        ((x ++ xs.flatten) ++ b)
      rw [List.append_assoc, List.append_assoc]
      exact List.Perm.append_left x (ih j (by simpa using hi))

lemma flatten_set_cons {α : Type} (l : List (List α)) (i : Nat) (e : α)
    (hi : i < l.length) :
    List.Perm ((l.set i (e :: l.getD i [])).flatten) (e :: l.flatten) := by
  have h := flatten_set_perm l i (e :: l.getD i []) hi
  have h2 : List.Perm (l.flatten ++ e :: l.getD i [])
      ((e :: l.flatten) ++ l.getD i []) := List.perm_middle
  exact (List.perm_append_right_iff _).mp (h.trans h2)

lemma flatten_set_remove {α : Type} (l : List (List α)) (i : Nat) (e : α)
    (rest : List α) (hi : i < l.length)
    (hsplit : List.Perm (l.getD i []) (e :: rest)) :
    List.Perm l.flatten (e :: (l.set i rest).flatten) := by
  have h := flatten_set_perm l i rest hi
  have h1 : List.Perm ((l.set i rest).flatten ++ (e :: rest))
      (l.flatten ++ rest) :=
    List.Perm.trans (List.Perm.append_left _ hsplit.symm) h
  have h2 : List.Perm ((l.set i rest).flatten ++ (e :: rest))
      ((e :: (l.set i rest).flatten) ++ rest) := List.perm_middle
  exact ((List.perm_append_right_iff _).mp (h2.symm.trans h1)).symm

lemma flatten_set_nil {α : Type} (l : List (List α)) (i : Nat)
    (hi : i < l.length) :
    List.Perm ((l.set i []).flatten ++ l.getD i []) l.flatten := by
  have h := flatten_set_perm l i [] hi
  simpa using h

lemma bucketFind_eq_some (k : Nat) (b : Bucket) (e : DictEntry)
    (h : bucketFind k b = some e) : e ∈ b ∧ e.key = k := by
  induction b with
  | nil => simp [bucketFind] at h
  | cons x xs ih =>
    unfold bucketFind at h
    split at h
    · rename_i hx
      cases h
      exact ⟨List.mem_cons_self _ _, hx⟩
    · obtain ⟨hm, hk⟩ := ih h
      exact ⟨List.mem_cons_of_mem _ hm, hk⟩

lemma bucketFind_eq_none (k : Nat) (b : Bucket)
    (h : bucketFind k b = none) : ∀ e ∈ b, e.key ≠ k := by
  induction b with
  | nil => intro e he; simp at he
  | cons x xs ih =>
    unfold bucketFind at h
    split at h
    · cases h
    · rename_i hx
      intro e he
      rcases List.mem_cons.mp he with rfl | he'
      · exact hx
      · exact ih h e he'

lemma bucketFind_isSome_of_mem (k : Nat) (b : Bucket) (e : DictEntry)
    (he : e ∈ b) (hk : e.key = k) :
    ∃ e', bucketFind k b = some e' ∧ e' ∈ b ∧ e'.key = k := by
  induction b with
  | nil => simp at he
  | cons x xs ih =>
    unfold bucketFind
    by_cases hx : x.key = k
    · exact ⟨x, by rw [if_pos hx], List.mem_cons_self _ _, hx⟩
    · rw [if_neg hx]
      rcases List.mem_cons.mp he with rfl | he'
      · exact absurd hk hx
      · obtain ⟨e', h1, h2, h3⟩ := ih he'
        exact ⟨e', h1, List.mem_cons_of_mem _ h2, h3⟩

lemma nodup_keys_eq {l : List DictEntry}
    (h : (l.map DictEntry.key).Nodup) {e e' : DictEntry}
    (he : e ∈ l) (he' : e' ∈ l) (hk : e.key = e'.key) : e = e' := by
  induction l with
  | nil => simp at he
  | cons x xs ih =>
    rw [List.map_cons, List.nodup_cons] at h
    obtain ⟨hx, hxs⟩ := h
    rcases List.mem_cons.mp he with rfl | he2 <;>
      rcases List.mem_cons.mp he' with h' | he'2
    · rw [h']
    · exact absurd (hk ▸ List.mem_map_of_mem DictEntry.key he'2) hx
    · subst h'
      exact absurd (hk ▸ List.mem_map_of_mem DictEntry.key he2) hx
    · exact ih hxs he2 he'2

lemma bucketRemove_eq_some (k : Nat) (b : Bucket) (e : DictEntry)
    (rest : Bucket) (h : bucketRemove k b = some (e, rest)) :
    e.key = k ∧ List.Perm b (e :: rest) := by
  induction b generalizing e rest with
  | nil => simp [bucketRemove] at h
  | cons x xs ih =>
    unfold bucketRemove at h
    split at h
    · rename_i hx
      cases h
      exact ⟨hx, List.Perm.refl _⟩
    · rename_i hx
      revert h
      split
      · rename_i e' rest' hrec
        intro h
        cases h
        obtain ⟨hk, hperm⟩ := ih e rest' hrec
        exact ⟨hk, List.Perm.trans (hperm.cons x) (List.Perm.swap e x rest')⟩
      · intro h
        cases h

lemma bucketRemove_eq_none (k : Nat) (b : Bucket)
    (h : bucketRemove k b = none) : ∀ e ∈ b, e.key ≠ k := by
  induction b with
  | nil => intro e he; simp at he
  | cons x xs ih =>
    unfold bucketRemove at h
    split at h
    · cases h
    · rename_i hx
      revert h
      split
      · intro h; cases h
      · rename_i hrec
        intro _ e he
        rcases List.mem_cons.mp he with rfl | he'
        · exact hx
        · exact ih hrec e he'

lemma htIndex_lt (h : Nat → Nat) (t : Dictht) (hwf : htWF h t)
    (hsz : t.size ≠ 0) (x : Nat) : htIndex t x < t.table.length := by
  obtain ⟨h1, h2, h3, _, _⟩ := hwf
  rcases h2 with h2 | h2
  · exact absurd h2 hsz
  · obtain ⟨b, _, hb⟩ := h2
    unfold htIndex
    rw [h3, ← h1, hb, Nat.and_pow_two_sub_one_eq_mod]
    exact Nat.mod_lt _ (Nat.pos_pow_of_pos _ (by norm_num))

lemma htUsed_eq_length (h : Nat → Nat) (t : Dictht) (hwf : htWF h t) :
    t.used = (htEntries t).length := by
  obtain ⟨_, _, _, h4, _⟩ := hwf
  rw [h4]
  unfold htEntries
  rw [List.length_flatten]

lemma htEntries_empty_of_used_zero (h : Nat → Nat) (t : Dictht)
    (hwf : htWF h t) (hz : t.used = 0) : htEntries t = [] := by
  have := htUsed_eq_length h t hwf
  rw [hz] at this
  exact List.length_eq_zero.mp this.symm

lemma htFind_of_mem (h : Nat → Nat) (t : Dictht) (hwf : htWF h t)
    (e : DictEntry) (he : e ∈ htEntries t) (k : Nat) (hk : e.key = k) :
    ∃ e', bucketFind k (htBucket t (htIndex t (h k))) = some e' ∧
      e' ∈ htEntries t ∧ e'.key = k := by
  have hwf' := hwf
  obtain ⟨h1, h2, h3, h4, h5⟩ := hwf'
  obtain ⟨b, hb, heb⟩ := List.mem_flatten.mp he
  obtain ⟨i, hget⟩ := List.mem_iff_get.mp hb
  have hgetD : t.table.getD i.1 [] = b := by
    rw [List.getD_eq_getElem?_getD, List.getElem?_eq_getElem i.2]
    simp [← hget, List.get_eq_getElem]
  have hplace : htIndex t (h e.key) = i.1 :=
    h5 i.1 i.2 e (by rw [hgetD]; exact heb)
  have hbucket : htBucket t (htIndex t (h k)) = b := by
    unfold htBucket
    rw [← hk, hplace, hgetD]
  rw [hbucket]
  obtain ⟨e', h1', h2', h3'⟩ := bucketFind_isSome_of_mem k b e heb hk
  exact ⟨e', h1', mem_getD_flatten t.table i.1 e' (hgetD ▸ h2'), h3'⟩

lemma htFind_mem_of_some (h : Nat → Nat) (t : Dictht) (k : Nat)
    (e : DictEntry)
    (hfind : bucketFind k (htBucket t (htIndex t (h k))) = some e) :
    e ∈ htEntries t ∧ e.key = k := by
  obtain ⟨hmem, hkey⟩ := bucketFind_eq_some k _ e hfind
  exact ⟨mem_getD_flatten t.table _ e hmem, hkey⟩

lemma htWF_emptyHt (h : Nat → Nat) : htWF h emptyHt := by
  refine ⟨rfl, Or.inl rfl, rfl, rfl, ?_⟩
  intro i hi
  simp [emptyHt] at hi

lemma htInsert_wf (h : Nat → Nat) (t : Dictht) (hwf : htWF h t)
    (hsz : t.size ≠ 0) (e : DictEntry) :
    htWF h (htInsert t (htIndex t (h e.key)) e) ∧
    List.Perm (htEntries (htInsert t (htIndex t (h e.key)) e))
      (e :: htEntries t) ∧
    (htInsert t (htIndex t (h e.key)) e).size = t.size ∧
    (htInsert t (htIndex t (h e.key)) e).sizemask = t.sizemask ∧
    (htInsert t (htIndex t (h e.key)) e).used = t.used + 1 := by
  have hlt := htIndex_lt h t hwf hsz (h e.key)
  obtain ⟨h1, h2, h3, h4, h5⟩ := hwf
  set idx := htIndex t (h e.key) with hidx
  have hperm : List.Perm (htEntries (htInsert t idx e)) (e :: htEntries t) := by
    unfold htEntries htInsert htBucket
    exact flatten_set_cons t.table idx e hlt
  refine ⟨⟨?_, ?_, ?_, ?_, ?_⟩, hperm, rfl, rfl, rfl⟩
  · show t.size = (t.table.set idx (e :: htBucket t idx)).length
    rw [List.length_set]
    exact h1
  · exact h2
  · exact h3
  · show t.used + 1 =
      ((t.table.set idx (e :: htBucket t idx)).map List.length).sum
    have hlen := hperm.length_eq
    rw [List.length_cons] at hlen
    have hproj : htEntries (htInsert t idx e) =
        (t.table.set idx (e :: htBucket t idx)).flatten := rfl
    rw [hproj] at hlen
    have hF : t.used = (htEntries t).length := by
      rw [h4]
      exact (List.length_flatten _).symm
    rw [← List.length_flatten]
    omega
  · intro i hi e' he'
    have hi' : i < t.table.length := by
      have : (htInsert t idx e).table.length = t.table.length := by
        show (t.table.set idx (e :: htBucket t idx)).length = t.table.length
        exact List.length_set _ _ _
      omega
    show htIndex t (h e'.key) = i
    by_cases hieq : i = idx
    · have hbucket : (htInsert t idx e).table.getD i [] =
          e :: htBucket t idx := by
        rw [hieq]
        exact getD_set_self t.table idx (e :: htBucket t idx) [] (hieq ▸ hi')
      rw [hbucket] at he'
      rcases List.mem_cons.mp he' with rfl | he2
      · rw [hieq]
      · rw [hieq]
        exact h5 idx (hieq ▸ hi') e' he2
    · have hbucket : (htInsert t idx e).table.getD i [] =
          t.table.getD i [] :=
        getD_set_ne t.table idx i (e :: htBucket t idx) [] hieq
      rw [hbucket] at he'
      exact h5 i hi' e' he'

lemma migrateChain_wf (h : Nat → Nat) (c : Bucket) :
    ∀ (t1 : Dictht), htWF h t1 → t1.size ≠ 0 →
      htWF h (migrateChain h c t1) ∧
      List.Perm (htEntries (migrateChain h c t1)) (c ++ htEntries t1) ∧
      (migrateChain h c t1).size = t1.size ∧
      (migrateChain h c t1).sizemask = t1.sizemask ∧
      (migrateChain h c t1).used = t1.used + c.length := by
  induction c with
  | nil =>
    intro t1 hwf hsz
    exact ⟨hwf, List.Perm.refl _, rfl, rfl, rfl⟩
  | cons e rest ih =>
    intro t1 hwf hsz
    obtain ⟨hwf', hperm', hsz', hmask', hused'⟩ := htInsert_wf h t1 hwf hsz e
    have hsz2 : (htInsert t1 (htIndex t1 (h e.key)) e).size ≠ 0 := by
      rw [hsz']; exact hsz
    obtain ⟨ihwf, ihperm, ihsz, ihmask, ihused⟩ :=
      ih (htInsert t1 (htIndex t1 (h e.key)) e) hwf' hsz2
    have hstep : migrateChain h (e :: rest) t1 =
        migrateChain h rest (htInsert t1 (htIndex t1 (h e.key)) e) := rfl
    rw [hstep]
    refine ⟨ihwf, ?_, by rw [ihsz, hsz'], by rw [ihmask, hmask'], ?_⟩
    · refine List.Perm.trans ihperm ?_
      refine List.Perm.trans (List.Perm.append_left rest hperm') ?_
      exact List.perm_middle
    · rw [ihused, hused', List.length_cons]
      omega

lemma findNonEmptyIdx_some :
    ∀ (l : List Bucket) (j : Nat), findNonEmptyIdx l = some j →
      j < l.length ∧ l.getD j [] ≠ [] ∧ ∀ m, m < j → l.getD m [] = [] := by
  intro l
  induction l with
  | nil => intro j hj; simp [findNonEmptyIdx] at hj
  | cons b bs ih =>
    intro j hj
    unfold findNonEmptyIdx at hj
    split at hj
    · rename_i hbe
      rcases hmap : findNonEmptyIdx bs with _ | j'
      · rw [hmap] at hj; simp at hj
      · rw [hmap] at hj
        simp only [Option.map_some'] at hj
        cases hj
        obtain ⟨ih1, ih2, ih3⟩ := ih j' hmap
        refine ⟨by simpa using ih1, by simpa using ih2, ?_⟩
        intro m hm
        cases m with
        | zero => simpa using List.isEmpty_iff.mp hbe
        | succ m' => simpa using ih3 m' (by omega)
    · rename_i hbe
      cases hj
      refine ⟨by simp, ?_, by omega⟩
      show b ≠ []
      simpa using hbe

lemma getD_drop {α : Type} :
    ∀ (i : Nat) (l : List α) (j : Nat) (d : α),
      (l.drop i).getD j d = l.getD (i + j) d := by
  intro i
  induction i with
  | zero => intro l j d; simp
  | succ i' ih =>
    intro l j d
    cases l with
    | nil => simp
    | cons x xs =>
      show (xs.drop i').getD j d = (x :: xs).getD (i' + 1 + j) d
      rw [ih xs j d]
      have harith : i' + 1 + j = (i' + j) + 1 := by omega
      rw [harith, List.getD_cons_succ]

lemma firstNonEmptyFrom_some (tbl : List Bucket) (i idx : Nat)
    (h : firstNonEmptyFrom tbl i = some idx) :
    i ≤ idx ∧ idx < tbl.length ∧ tbl.getD idx [] ≠ [] ∧
      ∀ m, i ≤ m → m < idx → tbl.getD m [] = [] := by
  unfold firstNonEmptyFrom at h
  rcases hfind : findNonEmptyIdx (tbl.drop i) with _ | j
  · rw [hfind] at h; simp at h
  · rw [hfind] at h
    simp only [Option.map_some'] at h
    cases h
    obtain ⟨h1, h2, h3⟩ := findNonEmptyIdx_some (tbl.drop i) j hfind
    rw [List.length_drop] at h1
    rw [getD_drop] at h2
    refine ⟨by omega, by omega, h2, ?_⟩
    intro m him hmj
    have := h3 (m - i) (by omega)
    rw [getD_drop] at this
    have harith : i + (m - i) = m := by omega
    rw [harith] at this
    exact this

lemma dictIsRehashing_iff (d : Dict) :
    dictIsRehashing d = true ↔ d.rehashidx ≠ -1 := by
  unfold dictIsRehashing
  simp

lemma rehashLoop_spec (h : Nat → Nat) :
    ∀ (n : Nat) (d : Dict), dictWF h d → dictIsRehashing d = true →
      dictWF h (rehashLoop h n d).1 ∧
      List.Perm (dictEntries (rehashLoop h n d).1) (dictEntries d) ∧
      (rehashLoop h n d).1.iterators = d.iterators ∧
      (dictIsRehashing (rehashLoop h n d).1 = true →
        (rehashLoop h n d).1.ht0.used ≤ d.ht0.used) := by
  intro n
  induction n with
  | zero =>
    intro d hwf hre
    exact ⟨hwf, List.Perm.refl _, rfl, fun _ => le_refl _⟩
  | succ n ih =>
    intro d hwf hre
    have hne := (dictIsRehashing_iff d).mp hre
    obtain ⟨hw0, hw1, hnd, hrs⟩ := hwf
    rw [if_neg hne] at hrs
    obtain ⟨hr0, hr1, hsz0, hsz1, hpre⟩ := hrs
    by_cases hz : d.ht0.used = 0
    · have hloop : rehashLoop h (n + 1) d = (⟨d.ht1, emptyHt, -1, d.iterators⟩, 0) := by
        show (if d.ht0.used = 0 then _ else _) = _
        rw [if_pos hz]
      have hht0e : htEntries d.ht0 = [] := htEntries_empty_of_used_zero h d.ht0 hw0 hz
      have hperm : List.Perm (dictEntries (⟨d.ht1, emptyHt, -1, d.iterators⟩ : Dict))
          (dictEntries d) := by
        show List.Perm (htEntries d.ht1 ++ htEntries emptyHt)
          (htEntries d.ht0 ++ htEntries d.ht1)
        rw [hht0e]
        show List.Perm (htEntries d.ht1 ++ []) ([] ++ htEntries d.ht1)
        rw [List.append_nil, List.nil_append]
      rw [hloop]
      refine ⟨⟨hw1, htWF_emptyHt h, ?_, ?_⟩, hperm, rfl, ?_⟩
      · unfold dictKeys
        exact ((hperm.map DictEntry.key).nodup_iff).mpr hnd
      · rw [if_pos rfl]
      · intro hcontra
        simp [dictIsRehashing] at hcontra
    · rcases hfind : firstNonEmptyFrom d.ht0.table d.rehashidx.toNat with _ | idx
      · have hloop : rehashLoop h (n + 1) d = (d, 1) := by
          show (if d.ht0.used = 0 then _ else _) = _
          rw [if_neg hz, hfind]
        rw [hloop]
        have hwf' : dictWF h d := by
          refine ⟨hw0, hw1, hnd, ?_⟩
          rw [if_neg hne]
          exact ⟨hr0, hr1, hsz0, hsz1, hpre⟩
        exact ⟨hwf', List.Perm.refl _, rfl, fun _ => le_refl _⟩
      · obtain ⟨hi_le, hi_lt, hi_ne, hi_skip⟩ :=
          firstNonEmptyFrom_some d.ht0.table d.rehashidx.toNat idx hfind
        obtain ⟨ha1, ha2, ha3, ha4, ha5⟩ := hw0
        set chain := htBucket d.ht0 idx with hchain
        set ht1' := migrateChain h chain d.ht1 with hht1'
        set ht0' := { d.ht0 with table := d.ht0.table.set idx []
                               , used := d.ht0.used - chain.length } with hht0'
        set d2 := (⟨ht0', ht1', ((idx + 1 : Nat) : Int), d.iterators⟩ : Dict) with hd2
        have hloop : rehashLoop h (n + 1) d = rehashLoop h n d2 := by
          show (if d.ht0.used = 0 then _ else _) = _
          rw [if_neg hz, hfind]
        obtain ⟨hmwf, hmperm, hmsz, hmmask, hmused⟩ :=
          migrateChain_wf h chain d.ht1 hw1 hsz1
        have hsetperm := flatten_set_nil d.ht0.table idx hi_lt
        have hused_eq : d.ht0.used =
            ((d.ht0.table.set idx []).flatten).length + chain.length := by
          have hl := hsetperm.length_eq
          rw [List.length_append] at hl
          have hflat : d.ht0.used = d.ht0.table.flatten.length := by
            rw [ha4]
            exact (List.length_flatten _).symm
          have hch : chain.length = (d.ht0.table.getD idx []).length := rfl
          omega
        have hw0' : htWF h ht0' := by
          refine ⟨?_, ha2, ha3, ?_, ?_⟩
          · show d.ht0.size = (d.ht0.table.set idx []).length
            rw [List.length_set]
            exact ha1
          · show d.ht0.used - chain.length =
              ((d.ht0.table.set idx []).map List.length).sum
            rw [← List.length_flatten]
            omega
          · intro i hi e' he'
            have hi2 : i < d.ht0.table.length := by
              have hlen2 : (d.ht0.table.set idx []).length = d.ht0.table.length :=
                List.length_set _ _ _
              have hi' : i < (d.ht0.table.set idx []).length := hi
              omega
            have he2 : e' ∈ (d.ht0.table.set idx []).getD i [] := he'
            show htIndex d.ht0 (h e'.key) = i
            by_cases hieq : i = idx
            · rw [hieq] at he2
              rw [getD_set_self d.ht0.table idx ([] : Bucket) [] (by omega)] at he2
              simp at he2
            · rw [getD_set_ne d.ht0.table idx i ([] : Bucket) [] hieq] at he2
              exact ha5 i hi2 e' he2
        have hperm2 : List.Perm (dictEntries d2) (dictEntries d) := by
          show List.Perm ((d.ht0.table.set idx []).flatten ++ htEntries ht1')
            (htEntries d.ht0 ++ htEntries d.ht1)
          refine List.Perm.trans (List.Perm.append_left _ hmperm) ?_
          rw [← List.append_assoc]
          exact List.Perm.append_right _ hsetperm
        have hnd2 : (dictKeys d2).Nodup :=
          ((hperm2.map DictEntry.key).nodup_iff).mpr hnd
        have hrneq : ((idx + 1 : Nat) : Int) ≠ -1 := by omega
        have hwfd2 : dictWF h d2 := by
          refine ⟨hw0', hmwf, hnd2, ?_⟩
          have hne2 : d2.rehashidx ≠ -1 := hrneq
          rw [if_neg hne2]
          refine ⟨?_, ?_, ?_, ?_, ?_⟩
          · show (0 : Int) ≤ ((idx + 1 : Nat) : Int)
            omega
          · show (((idx + 1 : Nat) : Int)).toNat ≤ d.ht0.size
            omega
          · exact hsz0
          · show (migrateChain h chain d.ht1).size ≠ 0
            rw [hmsz]
            exact hsz1
          · intro m hm
            have hm' : m < (((idx + 1 : Nat) : Int)).toNat := hm
            have hm2 : m < idx + 1 := by omega
            show (d.ht0.table.set idx []).getD m [] = []
            by_cases hmeq : m = idx
            · rw [hmeq]
              exact getD_set_self d.ht0.table idx ([] : Bucket) [] (by omega)
            · rw [getD_set_ne d.ht0.table idx m ([] : Bucket) [] hmeq]
              by_cases hmr : m < d.rehashidx.toNat
              · exact hpre m hmr
              · exact hi_skip m (by omega) (by omega)
        have hre2 : dictIsRehashing d2 = true :=
          (dictIsRehashing_iff d2).mpr hrneq
        obtain ⟨ih1, ih2, ih3, ih4⟩ := ih d2 hwfd2 hre2
        rw [hloop]
        refine ⟨ih1, ih2.trans hperm2, ih3, ?_⟩
        intro hrr
        have h4 := ih4 hrr
        have hd2used : d2.ht0.used = d.ht0.used - chain.length := rfl
        omega

lemma dictRehashStep_wf (h : Nat → Nat) (d : Dict) (hwf : dictWF h d) :
    dictWF h (dictRehashStep h d) ∧
    List.Perm (dictEntries (dictRehashStep h d)) (dictEntries d) ∧
    (dictRehashStep h d).iterators = d.iterators ∧
    (dictIsRehashing (dictRehashStep h d) = true →
      (dictRehashStep h d).ht0.used ≤ d.ht0.used) := by
  unfold dictRehashStep dictRehash
  by_cases hit : d.iterators = 0
  · rw [if_pos hit]
    by_cases hre : dictIsRehashing d
    · rw [if_neg (by omega), if_neg (by simp [hre])]
      obtain ⟨h1, h2, h3, h4⟩ := rehashLoop_spec h 1 d hwf hre
      exact ⟨h1, h2, h3, h4⟩
    · rw [if_neg (by omega), if_pos (by simpa using hre)]
      exact ⟨hwf, List.Perm.refl _, rfl, fun _ => le_refl _⟩
  · rw [if_neg hit]
    exact ⟨hwf, List.Perm.refl _, rfl, fun _ => le_refl _⟩

/-- The dictionary after the conditional rehash step that opens `add`,
`find` and `delete`. -/
def steppedDict (h : Nat → Nat) (d : Dict) : Dict :=
  if dictIsRehashing d then dictRehashStep h d else d

lemma steppedDict_wf (h : Nat → Nat) (d : Dict) (hwf : dictWF h d) :
    dictWF h (steppedDict h d) ∧
    List.Perm (dictEntries (steppedDict h d)) (dictEntries d) ∧
    (steppedDict h d).iterators = d.iterators ∧
    (dictIsRehashing (steppedDict h d) = true →
      (steppedDict h d).ht0.used ≤ d.ht0.used) := by
  unfold steppedDict
  split
  · exact dictRehashStep_wf h d hwf
  · exact ⟨hwf, List.Perm.refl _, rfl, fun _ => le_refl _⟩

lemma nextPowerAux_pow (n : Nat) :
    ∀ (fuel i j : Nat), i = 2 ^ j → 4 ≤ i →
      ∃ k, nextPowerAux n fuel i = 2 ^ k ∧ 4 ≤ nextPowerAux n fuel i := by
  intro fuel
  induction fuel with
  | zero =>
    intro i j hij h4
    exact ⟨j, hij, h4⟩
  | succ fuel ih =>
    intro i j hij h4
    show ∃ k, (if n ≤ i then i else nextPowerAux n fuel (2 * i)) = 2 ^ k ∧
      4 ≤ (if n ≤ i then i else nextPowerAux n fuel (2 * i))
    split
    · exact ⟨j, hij, h4⟩
    · exact ih (2 * i) (j + 1) (by rw [hij]; ring) (by omega)

lemma dictNextPower_pow (n : Nat) :
    ∃ k, dictNextPower n = 2 ^ k ∧ 4 ≤ dictNextPower n :=
  nextPowerAux_pow n 64 4 2 (by norm_num) (by norm_num)

lemma getD_replicate_nil (n i : Nat) :
    (List.replicate n ([] : Bucket)).getD i [] = [] := by
  induction n generalizing i with
  | zero => simp
  | succ m ih =>
    cases i with
    | zero => rfl
    | succ j =>
      simp only [List.replicate_succ, List.getD_cons_succ]
      exact ih j

lemma flatten_replicate_nil {α : Type} (n : Nat) :
    (List.replicate n ([] : List α)).flatten = [] := by
  induction n with
  | zero => rfl
  | succ m ih => simp [List.replicate_succ, ih]

lemma newHt_wf (h : Nat → Nat) (sz : Nat) (hpow : ∃ k, sz = 2 ^ k) :
    htWF h (newHt sz) ∧ htEntries (newHt sz) = [] := by
  obtain ⟨k, hk⟩ := hpow
  constructor
  · refine ⟨?_, ?_, rfl, ?_, ?_⟩
    · show sz = (List.replicate sz ([] : Bucket)).length
      rw [List.length_replicate]
    · refine Or.inr ?_
      refine ⟨k, ?_, hk⟩
      rw [hk]
      exact Nat.lt_two_pow k
    · show (0 : Nat) = ((List.replicate sz ([] : Bucket)).map List.length).sum
      rw [List.map_replicate]
      simp
    · intro i hi e he
      rw [show (newHt sz).table = List.replicate sz ([] : Bucket) from rfl,
        getD_replicate_nil] at he
      simp at he
  · show (List.replicate sz ([] : Bucket)).flatten = []
    exact flatten_replicate_nil sz

lemma htEntries_of_size_zero (h : Nat → Nat) (t : Dictht) (hwf : htWF h t)
    (hsz : t.size = 0) : htEntries t = [] := by
  obtain ⟨h1, _, _, _, _⟩ := hwf
  have : t.table = [] := by
    have := h1.symm.trans hsz
    exact List.length_eq_zero.mp this
  unfold htEntries
  rw [this]
  rfl

lemma dictExpand_wf (h : Nat → Nat) (d : Dict) (n : Nat) (hwf : dictWF h d) :
    dictWF h (dictExpand d n).1 ∧
    List.Perm (dictEntries (dictExpand d n).1) (dictEntries d) ∧
    (dictExpand d n).1.iterators = d.iterators ∧
    (dictIsRehashing (dictExpand d n).1 = true →
      (dictExpand d n).1.ht0.used ≤ d.ht0.used) := by
  obtain ⟨hw0, hw1, hnd, hrs⟩ := hwf
  unfold dictExpand
  by_cases hc : dictIsRehashing d = true ∨ d.ht0.used > n
  · rw [if_pos (by tauto)]
    refine ⟨⟨hw0, hw1, hnd, hrs⟩, List.Perm.refl _, rfl, fun _ => le_refl _⟩
  · push_neg at hc
    obtain ⟨hnore, hused⟩ := hc
    have hnore' : d.rehashidx = -1 := by
      by_contra hcon
      exact hnore ((dictIsRehashing_iff d).mpr hcon)
    rw [if_pos hnore'] at hrs
    rw [if_neg (by push_neg; exact ⟨hnore, by omega⟩)]
    obtain ⟨hnwf, hnent⟩ := newHt_wf h (dictNextPower n)
      ⟨(dictNextPower_pow n).choose, (dictNextPower_pow n).choose_spec.1⟩
    have h4le : 4 ≤ dictNextPower n := (dictNextPower_pow n).choose_spec.2
    by_cases hsz : d.ht0.size = 0
    · rw [if_pos hsz]
      have hent0 : htEntries d.ht0 = [] := htEntries_of_size_zero h d.ht0 hw0 hsz
      have hperm : List.Perm
          (dictEntries ({ d with ht0 := newHt (dictNextPower n) } : Dict))
          (dictEntries d) := by
        show List.Perm (htEntries (newHt (dictNextPower n)) ++ htEntries d.ht1)
          (htEntries d.ht0 ++ htEntries d.ht1)
        rw [hnent, hent0]
      refine ⟨⟨hnwf, hw1, ?_, ?_⟩, hperm, rfl, ?_⟩
      · exact ((hperm.map DictEntry.key).nodup_iff).mpr hnd
      · show (if d.rehashidx = -1 then _ else _ : Prop)
        rw [if_pos hnore']
        exact hrs
      · intro hcontra
        have hcontra' := (dictIsRehashing_iff _).mp hcontra
        exact absurd hnore' hcontra'
    · rw [if_neg hsz]
      have hent1 : htEntries d.ht1 = [] := by
        rw [hrs]
        rfl
      have hperm : List.Perm
          (dictEntries ({ d with
            ht1 := newHt (dictNextPower n)
            rehashidx := 0 } : Dict)) (dictEntries d) := by
        show List.Perm (htEntries d.ht0 ++ htEntries (newHt (dictNextPower n)))
          (htEntries d.ht0 ++ htEntries d.ht1)
        rw [hnent, hent1]
      refine ⟨⟨hw0, hnwf, ?_, ?_⟩, hperm, rfl, ?_⟩
      · exact ((hperm.map DictEntry.key).nodup_iff).mpr hnd
      · show (if (0 : Int) = -1 then _ else _ : Prop)
        rw [if_neg (by omega)]
        refine ⟨?_, ?_, hsz, ?_, ?_⟩
        · show (0 : Int) ≤ (0 : Int)
          omega
        · show ((0 : Int)).toNat ≤ d.ht0.size
          omega
        · show dictNextPower n ≠ 0
          omega
        · intro m hm
          have hm' : m < ((0 : Int)).toNat := hm
          omega
      · intro _
        exact le_refl _

lemma dictExpand_facts (d : Dict) (n : Nat) :
    ((dictExpand d n).1.ht0.size = 0 → d.ht0.size = 0) ∧
    (dictExpand d n).1.ht0.used ≤ d.ht0.used := by
  unfold dictExpand
  split_ifs with h1 h2
  · exact ⟨fun hh => hh, le_refl _⟩
  · refine ⟨fun _ => h2, ?_⟩
    show (0 : Nat) ≤ d.ht0.used
    omega
  · exact ⟨fun hh => hh, le_refl _⟩

lemma dictExpandIfNeeded_wf (h : Nat → Nat) (cr : Bool) (d : Dict)
    (hwf : dictWF h d) :
    dictWF h (dictExpandIfNeeded cr d) ∧
    List.Perm (dictEntries (dictExpandIfNeeded cr d)) (dictEntries d) ∧
    (dictExpandIfNeeded cr d).iterators = d.iterators ∧
    (dictIsRehashing (dictExpandIfNeeded cr d) = false →
      (dictExpandIfNeeded cr d).ht0.size ≠ 0) ∧
    (dictExpandIfNeeded cr d).ht0.used ≤ d.ht0.used := by
  unfold dictExpandIfNeeded
  split_ifs with h1 h2 h3
  · refine ⟨hwf, List.Perm.refl _, rfl, ?_, le_refl _⟩
    intro hF
    rw [hF] at h1
    cases h1
  · have hused0 : d.ht0.used = 0 := by
      have he := htEntries_of_size_zero h d.ht0 hwf.1 h2
      have hu := htUsed_eq_length h d.ht0 hwf.1
      rw [he] at hu
      simpa using hu
    have hnore : ¬ (dictIsRehashing d = true ∨ d.ht0.used > DICT_HT_INITIAL_SIZE) := by
      push_neg
      refine ⟨by simpa using h1, by omega⟩
    have hexp : dictExpand d DICT_HT_INITIAL_SIZE =
        ({ d with ht0 := newHt (dictNextPower DICT_HT_INITIAL_SIZE) }, DICT_OK) := by
      unfold dictExpand
      rw [if_neg hnore, if_pos h2]
    obtain ⟨hwf', hperm', hit', _⟩ :=
      dictExpand_wf h d DICT_HT_INITIAL_SIZE hwf
    refine ⟨hwf', hperm', hit', ?_, ?_⟩
    · intro _
      rw [hexp]
      show dictNextPower DICT_HT_INITIAL_SIZE ≠ 0
      have := (dictNextPower_pow DICT_HT_INITIAL_SIZE).choose_spec.2
      omega
    · exact (dictExpand_facts d DICT_HT_INITIAL_SIZE).2
  · obtain ⟨hwf', hperm', hit', _⟩ :=
      dictExpand_wf h d (d.ht0.used * 2) hwf
    refine ⟨hwf', hperm', hit', ?_, (dictExpand_facts d (d.ht0.used * 2)).2⟩
    intro _
    intro hF
    exact h2 ((dictExpand_facts d (d.ht0.used * 2)).1 hF)
  · refine ⟨hwf, List.Perm.refl _, rfl, fun _ => h2, le_refl _⟩

lemma nodup_keys_split {l₁ l₂ : List DictEntry}
    (h : ((l₁ ++ l₂).map DictEntry.key).Nodup) :
    (l₁.map DictEntry.key).Nodup ∧ (l₂.map DictEntry.key).Nodup ∧
      ∀ e₁ ∈ l₁, ∀ e₂ ∈ l₂, e₁.key ≠ e₂.key := by
  rw [List.map_append, List.nodup_append] at h
  obtain ⟨h1, h2, h3⟩ := h
  refine ⟨h1, h2, ?_⟩
  intro e₁ he₁ e₂ he₂ hk
  exact h3 (List.mem_map_of_mem DictEntry.key he₁)
    (by rw [hk]; exact List.mem_map_of_mem DictEntry.key he₂)

lemma mem_dictKeys (d : Dict) (k : Nat) :
    k ∈ dictKeys d ↔ ∃ e ∈ dictEntries d, e.key = k := by
  unfold dictKeys
  constructor
  · intro hk
    obtain ⟨e, he, hek⟩ := List.mem_map.mp hk
    exact ⟨e, he, hek⟩
  · intro ⟨e, he, hek⟩
    exact List.mem_map.mpr ⟨e, he, hek⟩

lemma dictKeyExists_iff (h : Nat → Nat) (d : Dict) (k : Nat)
    (hwf : dictWF h d) : dictKeyExists h d k = true ↔ k ∈ dictKeys d := by
  obtain ⟨hw0, hw1, hnd, hrs⟩ := hwf
  unfold dictKeyExists
  rw [Bool.or_eq_true]
  constructor
  · intro hex
    rcases hex with hex | hex
    · obtain ⟨e, he⟩ := Option.isSome_iff_exists.mp hex
      obtain ⟨hm, hk⟩ := htFind_mem_of_some h d.ht0 k e he
      exact (mem_dictKeys d k).mpr ⟨e, List.mem_append_left _ hm, hk⟩
    · rw [Bool.and_eq_true] at hex
      obtain ⟨e, he⟩ := Option.isSome_iff_exists.mp hex.2
      obtain ⟨hm, hk⟩ := htFind_mem_of_some h d.ht1 k e he
      exact (mem_dictKeys d k).mpr ⟨e, List.mem_append_right _ hm, hk⟩
  · intro hk
    obtain ⟨e, he, hek⟩ := (mem_dictKeys d k).mp hk
    rcases List.mem_append.mp he with he0 | he1
    · obtain ⟨e', h1, _, _⟩ := htFind_of_mem h d.ht0 hw0 e he0 k hek
      exact Or.inl (by rw [h1]; rfl)
    · by_cases hre : dictIsRehashing d = true
      · obtain ⟨e', h1, _, _⟩ := htFind_of_mem h d.ht1 hw1 e he1 k hek
        refine Or.inr ?_
        rw [Bool.and_eq_true]
        exact ⟨hre, by rw [h1]; rfl⟩
      · exfalso
        have hne : d.rehashidx = -1 := by
          by_contra hcon
          exact hre ((dictIsRehashing_iff d).mpr hcon)
        rw [if_pos hne] at hrs
        rw [hrs] at he1
        have : htEntries emptyHt = [] := rfl
        rw [this] at he1
        simp at he1

lemma dictFindSearch_some (h : Nat → Nat) (d : Dict) (k : Nat)
    (hwf : dictWF h d) (e : DictEntry) (he : e ∈ dictEntries d)
    (hek : e.key = k) : dictFindSearch h d k = some e := by
  obtain ⟨hw0, hw1, hnd, hrs⟩ := hwf
  unfold dictFindSearch
  rcases List.mem_append.mp he with he0 | he1
  · obtain ⟨e', h1, h2, h3⟩ := htFind_of_mem h d.ht0 hw0 e he0 k hek
    rw [h1]
    have : e' = e := nodup_keys_eq hnd (List.mem_append_left _ h2)
      (List.mem_append_left _ he0) (by rw [h3, hek])
    rw [this]
  · by_cases hre : dictIsRehashing d = true
    · have hnone : bucketFind k (htBucket d.ht0 (htIndex d.ht0 (h k))) = none := by
        rcases hb : bucketFind k (htBucket d.ht0 (htIndex d.ht0 (h k))) with _ | e''
        · rfl
        · exfalso
          obtain ⟨hm, hk2⟩ := htFind_mem_of_some h d.ht0 k e'' hb
          exact (nodup_keys_split (by unfold dictKeys at hnd; exact hnd)).2.2
            e'' hm e he1 (by rw [hk2, hek])
      rw [hnone, if_pos hre]
      obtain ⟨e', h1, h2, h3⟩ := htFind_of_mem h d.ht1 hw1 e he1 k hek
      rw [h1]
      have : e' = e := nodup_keys_eq hnd (List.mem_append_right _ h2)
        (List.mem_append_right _ he1) (by rw [h3, hek])
      rw [this]
    · exfalso
      have hne : d.rehashidx = -1 := by
        by_contra hcon
        exact hre ((dictIsRehashing_iff d).mpr hcon)
      rw [if_pos hne] at hrs
      rw [hrs] at he1
      have : htEntries emptyHt = [] := rfl
      rw [this] at he1
      simp at he1

lemma dictFindSearch_none (h : Nat → Nat) (d : Dict) (k : Nat)
    (hk : k ∉ dictKeys d) :
    dictFindSearch h d k = none := by
  have hb0 : bucketFind k (htBucket d.ht0 (htIndex d.ht0 (h k))) = none := by
    rcases hb : bucketFind k (htBucket d.ht0 (htIndex d.ht0 (h k))) with _ | e
    · rfl
    · exfalso
      obtain ⟨hm, hkk⟩ := htFind_mem_of_some h d.ht0 k e hb
      exact hk ((mem_dictKeys d k).mpr ⟨e, List.mem_append_left _ hm, hkk⟩)
  have hb1 : bucketFind k (htBucket d.ht1 (htIndex d.ht1 (h k))) = none := by
    rcases hb : bucketFind k (htBucket d.ht1 (htIndex d.ht1 (h k))) with _ | e
    · rfl
    · exfalso
      obtain ⟨hm, hkk⟩ := htFind_mem_of_some h d.ht1 k e hb
      exact hk ((mem_dictKeys d k).mpr ⟨e, List.mem_append_right _ hm, hkk⟩)
  unfold dictFindSearch
  rw [hb0]
  show (if dictIsRehashing d = true then
    bucketFind k (htBucket d.ht1 (htIndex d.ht1 (h k))) else none) = none
  rw [hb1]
  split <;> rfl

lemma dictRehashStep_stillRehashing (h : Nat → Nat) (d : Dict)
    (hre : dictIsRehashing d = true) (hu : d.ht0.used ≠ 0) :
    dictIsRehashing (dictRehashStep h d) = true := by
  unfold dictRehashStep dictRehash
  by_cases hit : d.iterators = 0
  · rw [if_pos hit, if_neg (by omega), if_neg (by simp [hre])]
    show dictIsRehashing (rehashLoop h 1 d).1 = true
    have h1 : rehashLoop h 1 d =
        (if d.ht0.used = 0 then (⟨d.ht1, emptyHt, -1, d.iterators⟩, 0)
         else match firstNonEmptyFrom d.ht0.table d.rehashidx.toNat with
          | none => (d, 1)
          | some idx =>
            rehashLoop h 0
              ⟨{ d.ht0 with table := d.ht0.table.set idx []
                          , used := d.ht0.used - (htBucket d.ht0 idx).length }
              , migrateChain h (htBucket d.ht0 idx) d.ht1
              , ((idx + 1 : Nat) : Int), d.iterators⟩) := rfl
    rw [h1, if_neg hu]
    rcases hfind : firstNonEmptyFrom d.ht0.table d.rehashidx.toNat with _ | idx
    · exact hre
    · show dictIsRehashing
        (⟨_, _, ((idx + 1 : Nat) : Int), d.iterators⟩ : Dict) = true
      rw [dictIsRehashing_iff]
      show ((idx + 1 : Nat) : Int) ≠ -1
      omega
  · rw [if_neg hit]
    exact hre

lemma dictAdd_spec (h : Nat → Nat) (cr : Bool) (d : Dict) (k v : Nat)
    (hwf : dictWF h d) :
    dictWF h (dictAdd h cr d k v).1 ∧
    (dictAdd h cr d k v).1.iterators = d.iterators ∧
    ((dictAdd h cr d k v).2 = true →
      k ∉ dictKeys d ∧
      List.Perm (dictEntries (dictAdd h cr d k v).1)
        ((⟨k, v⟩ : DictEntry) :: dictEntries d)) ∧
    ((dictAdd h cr d k v).2 = false →
      k ∈ dictKeys d ∧
      List.Perm (dictEntries (dictAdd h cr d k v).1) (dictEntries d)) ∧
    (dictIsRehashing d = true → 0 < d.ht0.used →
      dictIsRehashing (dictAdd h cr d k v).1 = true →
      (dictAdd h cr d k v).1.ht0.used ≤ d.ht0.used) ∧
    ((dictAdd h cr d k v).2 = true →
      dictIsRehashing (dictAdd h cr d k v).1 = true →
      (⟨k, v⟩ : DictEntry) ∈ htEntries (dictAdd h cr d k v).1.ht1) := by
  obtain ⟨hwf1, hperm1, hit1, hmono1⟩ := steppedDict_wf h d hwf
  obtain ⟨hwf2, hperm2, hit2, hsize2, hmono2⟩ :=
    dictExpandIfNeeded_wf h cr (steppedDict h d) hwf1
  set d2 := dictExpandIfNeeded cr (steppedDict h d) with hd2def
  have hpermd2 : List.Perm (dictEntries d2) (dictEntries d) := hperm2.trans hperm1
  have hkeys : ∀ k', k' ∈ dictKeys d2 ↔ k' ∈ dictKeys d := fun k' =>
    (hpermd2.map DictEntry.key).mem_iff
  have hitd2 : d2.iterators = d.iterators := hit2.trans hit1
  have hmono : dictIsRehashing d = true → 0 < d.ht0.used →
      d2.ht0.used ≤ d.ht0.used ∧ dictIsRehashing d2 = true := by
    intro hre hu
    have hd1re : dictIsRehashing (steppedDict h d) = true := by
      unfold steppedDict
      rw [if_pos hre]
      exact dictRehashStep_stillRehashing h d hre (by omega)
    have hd2eq : d2 = steppedDict h d := by
      rw [hd2def]
      unfold dictExpandIfNeeded
      rw [if_pos hd1re]
    rw [hd2eq]
    exact ⟨hmono1 hd1re, hd1re⟩
  have hadd : dictAdd h cr d k v =
      (if dictKeyExists h d2 k then (d2, false)
       else if dictIsRehashing d2 then
         ({ d2 with ht1 := htInsert d2.ht1 (htIndex d2.ht1 (h k)) ⟨k, v⟩ }, true)
       else
         ({ d2 with ht0 := htInsert d2.ht0 (htIndex d2.ht0 (h k)) ⟨k, v⟩ },
          true)) := rfl
  by_cases hex : dictKeyExists h d2 k = true
  · rw [hadd, if_pos hex]
    refine ⟨hwf2, hitd2, ?_, ?_, ?_, ?_⟩
    · intro hcon
      simp at hcon
    · intro _
      exact ⟨(hkeys k).mp ((dictKeyExists_iff h d2 k hwf2).mp hex), hpermd2⟩
    · intro hre hu _
      exact (hmono hre hu).1
    · intro hcon
      simp at hcon
  · have hnotmem : k ∉ dictKeys d2 := fun hmem =>
      hex ((dictKeyExists_iff h d2 k hwf2).mpr hmem)
    have hnotmemd : k ∉ dictKeys d := fun hmem => hnotmem ((hkeys k).mpr hmem)
    rw [hadd, if_neg hex]
    by_cases hre2 : dictIsRehashing d2 = true
    · rw [if_pos hre2]
      obtain ⟨hw20, hw21, hnd2, hrs2⟩ := hwf2
      have hne2 : d2.rehashidx ≠ -1 := (dictIsRehashing_iff d2).mp hre2
      rw [if_neg hne2] at hrs2
      obtain ⟨hb0, hb1, hbsz0, hbsz1, hbpre⟩ := hrs2
      obtain ⟨hiwf, hiperm, hisz, himask, hiused⟩ :=
        htInsert_wf h d2.ht1 hw21 hbsz1 ⟨k, v⟩
      have hpermI : List.Perm
          (dictEntries ({ d2 with
            ht1 := htInsert d2.ht1 (htIndex d2.ht1 (h k)) ⟨k, v⟩ } : Dict))
          ((⟨k, v⟩ : DictEntry) :: dictEntries d2) := by
        show List.Perm (htEntries d2.ht0 ++
            htEntries (htInsert d2.ht1 (htIndex d2.ht1 (h k)) ⟨k, v⟩))
          ((⟨k, v⟩ : DictEntry) :: (htEntries d2.ht0 ++ htEntries d2.ht1))
        exact List.Perm.trans (List.Perm.append_left _ hiperm) List.perm_middle
      have hnodI : (dictKeys ({ d2 with
          ht1 := htInsert d2.ht1 (htIndex d2.ht1 (h k)) ⟨k, v⟩ } : Dict)).Nodup := by
        have hkp := hpermI.map DictEntry.key
        rw [List.map_cons] at hkp
        unfold dictKeys
        rw [hkp.nodup_iff]
        exact List.nodup_cons.mpr ⟨hnotmem, hnd2⟩
      refine ⟨⟨hw20, hiwf, hnodI, ?_⟩, hitd2, ?_, ?_, ?_, ?_⟩
      · rw [if_neg (by exact hne2)]
        refine ⟨hb0, hb1, hbsz0, ?_, hbpre⟩
        show (htInsert d2.ht1 (htIndex d2.ht1 (h k)) ⟨k, v⟩).size ≠ 0
        rw [hisz]
        exact hbsz1
      · intro _
        exact ⟨hnotmemd, hpermI.trans (hpermd2.cons ⟨k, v⟩)⟩
      · intro hcon
        simp at hcon
      · intro hre hu _
        exact (hmono hre hu).1
      · intro _ _
        show (⟨k, v⟩ : DictEntry) ∈
          htEntries (htInsert d2.ht1 (htIndex d2.ht1 (h k)) ⟨k, v⟩)
        exact hiperm.mem_iff.mpr (List.mem_cons_self _ _)
    · rw [if_neg hre2]
      have hsz0 : d2.ht0.size ≠ 0 := hsize2 (by simpa using hre2)
      obtain ⟨hw20, hw21, hnd2, hrs2⟩ := hwf2
      have hne2 : d2.rehashidx = -1 := by
        by_contra hcon
        exact hre2 ((dictIsRehashing_iff d2).mpr hcon)
      rw [if_pos hne2] at hrs2
      obtain ⟨hiwf, hiperm, hisz, himask, hiused⟩ :=
        htInsert_wf h d2.ht0 hw20 hsz0 ⟨k, v⟩
      have hpermI : List.Perm
          (dictEntries ({ d2 with
            ht0 := htInsert d2.ht0 (htIndex d2.ht0 (h k)) ⟨k, v⟩ } : Dict))
          ((⟨k, v⟩ : DictEntry) :: dictEntries d2) := by
        show List.Perm
          (htEntries (htInsert d2.ht0 (htIndex d2.ht0 (h k)) ⟨k, v⟩) ++
            htEntries d2.ht1)
          (((⟨k, v⟩ : DictEntry) :: htEntries d2.ht0) ++ htEntries d2.ht1)
        exact List.Perm.append_right _ hiperm
      have hnodI : (dictKeys ({ d2 with
          ht0 := htInsert d2.ht0 (htIndex d2.ht0 (h k)) ⟨k, v⟩ } : Dict)).Nodup := by
        have hkp := hpermI.map DictEntry.key
        rw [List.map_cons] at hkp
        unfold dictKeys
        rw [hkp.nodup_iff]
        exact List.nodup_cons.mpr ⟨hnotmem, hnd2⟩
      refine ⟨⟨hiwf, hw21, hnodI, ?_⟩, hitd2, ?_, ?_, ?_, ?_⟩
      · rw [if_pos (by exact hne2)]
        exact hrs2
      · intro _
        exact ⟨hnotmemd, hpermI.trans (hpermd2.cons ⟨k, v⟩)⟩
      · intro hcon
        simp at hcon
      · intro hre hu hre'
        exfalso
        have := (dictIsRehashing_iff _).mp hre'
        exact this hne2
      · intro _ hre'
        exfalso
        have := (dictIsRehashing_iff _).mp hre'
        exact this hne2

lemma getD_ne_nil_lt {α : Type} (l : List (List α)) (i : Nat)
    (h : l.getD i [] ≠ []) : i < l.length := by
  by_contra hge
  rw [List.getD_eq_getElem?_getD, List.getElem?_eq_none (by omega)] at h
  simp at h

lemma mem_bucket_of_mem (h : Nat → Nat) (t : Dictht) (hwf : htWF h t)
    (e : DictEntry) (he : e ∈ htEntries t) :
    e ∈ htBucket t (htIndex t (h e.key)) := by
  obtain ⟨h1, h2, h3, h4, h5⟩ := hwf
  obtain ⟨b, hb, heb⟩ := List.mem_flatten.mp he
  obtain ⟨i, hget⟩ := List.mem_iff_get.mp hb
  have hgetD : t.table.getD i.1 [] = b := by
    rw [List.getD_eq_getElem?_getD, List.getElem?_eq_getElem i.2]
    simp [← hget, List.get_eq_getElem]
  have hplace : htIndex t (h e.key) = i.1 :=
    h5 i.1 i.2 e (by rw [hgetD]; exact heb)
  unfold htBucket
  rw [hplace, hgetD]
  exact heb

lemma htRemove_wf (h : Nat → Nat) (t : Dictht) (hwf : htWF h t) (k : Nat)
    (e : DictEntry) (rest : Bucket)
    (hrem : bucketRemove k (htBucket t (htIndex t (h k))) = some (e, rest)) :
    htWF h { t with table := t.table.set (htIndex t (h k)) rest
                  , used := t.used - 1 } ∧
    e.key = k ∧
    List.Perm (htEntries t)
      (e :: htEntries { t with table := t.table.set (htIndex t (h k)) rest
                             , used := t.used - 1 }) := by
  obtain ⟨hk, hbperm⟩ := bucketRemove_eq_some k _ e rest hrem
  have hbne : htBucket t (htIndex t (h k)) ≠ [] := by
    intro hnil
    rw [hnil] at hrem
    cases hrem
  have hilt : htIndex t (h k) < t.table.length := getD_ne_nil_lt _ _ hbne
  have hsplit : List.Perm (t.table.getD (htIndex t (h k)) []) (e :: rest) := hbperm
  have hperm := flatten_set_remove t.table (htIndex t (h k)) e rest hilt hsplit
  obtain ⟨h1, h2, h3, h4, h5⟩ := hwf
  refine ⟨⟨?_, h2, h3, ?_, ?_⟩, hk, hperm⟩
  · show t.size = (t.table.set (htIndex t (h k)) rest).length
    rw [List.length_set]
    exact h1
  · show t.used - 1 = ((t.table.set (htIndex t (h k)) rest).map List.length).sum
    have hlen := hperm.length_eq
    rw [List.length_cons] at hlen
    have hflat : t.used = t.table.flatten.length := by
      rw [h4]
      exact (List.length_flatten _).symm
    rw [← List.length_flatten]
    omega
  · intro i hi e' he'
    have hi2 : i < t.table.length := by
      have hl : (t.table.set (htIndex t (h k)) rest).length = t.table.length :=
        List.length_set _ _ _
      have hi' : i < (t.table.set (htIndex t (h k)) rest).length := hi
      omega
    show htIndex t (h e'.key) = i
    by_cases hieq : i = htIndex t (h k)
    · have he2 : e' ∈ (t.table.set (htIndex t (h k)) rest).getD i [] := he'
      rw [hieq, getD_set_self t.table _ rest [] (by omega)] at he2
      have he3 : e' ∈ t.table.getD (htIndex t (h k)) [] :=
        hsplit.symm.mem_iff.mp (List.mem_cons_of_mem e he2)
      rw [hieq]
      exact h5 _ hilt e' he3
    · have he2 : e' ∈ (t.table.set (htIndex t (h k)) rest).getD i [] := he'
      rw [getD_set_ne t.table _ i rest [] hieq] at he2
      exact h5 i hi2 e' he2

lemma dictDelete_spec (h : Nat → Nat) (d : Dict) (k : Nat) (hwf : dictWF h d) :
    dictWF h (dictDelete h d k).1 ∧
    (dictDelete h d k).1.iterators = d.iterators ∧
    ((dictDelete h d k).2 = true →
      ∃ e : DictEntry, e.key = k ∧
        List.Perm (dictEntries d) (e :: dictEntries (dictDelete h d k).1)) ∧
    ((dictDelete h d k).2 = false →
      k ∉ dictKeys d ∧
      List.Perm (dictEntries (dictDelete h d k).1) (dictEntries d)) ∧
    (dictIsRehashing d = true → 0 < d.ht0.used →
      dictIsRehashing (dictDelete h d k).1 = true →
      (dictDelete h d k).1.ht0.used ≤ d.ht0.used) := by
  obtain ⟨hwf1, hperm1, hit1, hmono1⟩ := steppedDict_wf h d hwf
  set d1 := steppedDict h d with hd1def
  have hstepmono : dictIsRehashing d = true → 0 < d.ht0.used →
      d1.ht0.used ≤ d.ht0.used := by
    intro hre hu
    have hd1re : dictIsRehashing d1 = true := by
      rw [hd1def]
      show dictIsRehashing (if dictIsRehashing d then dictRehashStep h d else d) = true
      rw [if_pos hre]
      exact dictRehashStep_stillRehashing h d hre (by omega)
    exact hmono1 hd1re
  obtain ⟨hw10, hw11, hnd1, hrs1⟩ := hwf1
  have hdel : dictDelete h d k =
      (match bucketRemove k (htBucket d1.ht0 (htIndex d1.ht0 (h k))) with
       | some p =>
         ({ d1 with ht0 := { d1.ht0 with
              table := d1.ht0.table.set (htIndex d1.ht0 (h k)) p.2
              used := d1.ht0.used - 1 } }, true)
       | none =>
         if dictIsRehashing d1 then
           match bucketRemove k (htBucket d1.ht1 (htIndex d1.ht1 (h k))) with
           | some p =>
             ({ d1 with ht1 := { d1.ht1 with
                  table := d1.ht1.table.set (htIndex d1.ht1 (h k)) p.2
                  used := d1.ht1.used - 1 } }, true)
           | none => (d1, false)
         else (d1, false)) := rfl
  rcases hrem0 : bucketRemove k (htBucket d1.ht0 (htIndex d1.ht0 (h k)))
    with _ | ⟨e, rest⟩
  · -- not in the T[0] bucket
    have hnone0 := bucketRemove_eq_none k _ hrem0
    by_cases hred1 : dictIsRehashing d1 = true
    · rcases hrem1 : bucketRemove k (htBucket d1.ht1 (htIndex d1.ht1 (h k)))
        with _ | ⟨e, rest⟩
      · -- absent everywhere
        have hnone1 := bucketRemove_eq_none k _ hrem1
        have hres : dictDelete h d k = (d1, false) := by
          rw [hdel, hrem0, if_pos hred1, hrem1]
        have hnotmem : k ∉ dictKeys d1 := by
          intro hmem
          obtain ⟨e', he', hek⟩ := (mem_dictKeys d1 k).mp hmem
          rcases List.mem_append.mp he' with h0 | h1
          · exact hnone0 e' (by
              have := mem_bucket_of_mem h d1.ht0 hw10 e' h0
              rw [hek] at this
              exact this) hek
          · exact hnone1 e' (by
              have := mem_bucket_of_mem h d1.ht1 hw11 e' h1
              rw [hek] at this
              exact this) hek
        rw [hres]
        refine ⟨⟨hw10, hw11, hnd1, hrs1⟩, hit1, ?_, ?_, ?_⟩
        · intro hcon
          simp at hcon
        · intro _
          exact ⟨fun hm => hnotmem ((hperm1.map DictEntry.key).mem_iff.mpr hm),
            hperm1⟩
        · intro hre hu _
          exact hstepmono hre hu
      · -- unlink from the T[1] bucket
        obtain ⟨hw1', hek, hperm'⟩ := htRemove_wf h d1.ht1 hw11 k e rest hrem1
        have hres : dictDelete h d k =
            ({ d1 with ht1 := { d1.ht1 with
                 table := d1.ht1.table.set (htIndex d1.ht1 (h k)) rest
                 used := d1.ht1.used - 1 } }, true) := by
          rw [hdel, hrem0, if_pos hred1, hrem1]
        rw [hres]
        have hpermd : List.Perm (dictEntries d1)
            (e :: dictEntries ({ d1 with ht1 := { d1.ht1 with
               table := d1.ht1.table.set (htIndex d1.ht1 (h k)) rest
               used := d1.ht1.used - 1 } } : Dict)) := by
          show List.Perm (htEntries d1.ht0 ++ htEntries d1.ht1)
            (e :: (htEntries d1.ht0 ++ htEntries ({ d1.ht1 with
               table := d1.ht1.table.set (htIndex d1.ht1 (h k)) rest
               used := d1.ht1.used - 1 } : Dictht)))
          refine List.Perm.trans (List.Perm.append_left _ hperm') ?_
          exact List.perm_middle
        have hnd' : (dictKeys ({ d1 with ht1 := { d1.ht1 with
            table := d1.ht1.table.set (htIndex d1.ht1 (h k)) rest
            used := d1.ht1.used - 1 } } : Dict)).Nodup := by
          have hkp := hpermd.map DictEntry.key
          rw [List.map_cons] at hkp
          have := (hkp.nodup_iff).mp hnd1
          exact (List.nodup_cons.mp this).2
        have hne1 : d1.rehashidx ≠ -1 := (dictIsRehashing_iff d1).mp hred1
        rw [if_neg hne1] at hrs1
        obtain ⟨hb0, hb1, hbsz0, hbsz1, hbpre⟩ := hrs1
        refine ⟨⟨hw10, hw1', hnd', ?_⟩, hit1, ?_, ?_, ?_⟩
        · rw [if_neg (by exact hne1)]
          refine ⟨hb0, hb1, hbsz0, ?_, hbpre⟩
          show d1.ht1.size ≠ 0
          exact hbsz1
        · intro _
          exact ⟨e, hek, hperm1.symm.trans hpermd⟩
        · intro hcon
          simp at hcon
        · intro hre hu _
          show d1.ht0.used ≤ d.ht0.used
          exact hstepmono hre hu
    · -- not rehashing: absent
      have hres : dictDelete h d k = (d1, false) := by
        rw [hdel, hrem0, if_neg hred1]
      have hne1 : d1.rehashidx = -1 := by
        by_contra hcon
        exact hred1 ((dictIsRehashing_iff d1).mpr hcon)
      have hrs1' := hrs1
      rw [if_pos hne1] at hrs1'
      have hnotmem : k ∉ dictKeys d1 := by
        intro hmem
        obtain ⟨e', he', hek⟩ := (mem_dictKeys d1 k).mp hmem
        rcases List.mem_append.mp he' with h0 | h1
        · exact hnone0 e' (by
            have := mem_bucket_of_mem h d1.ht0 hw10 e' h0
            rw [hek] at this
            exact this) hek
        · rw [hrs1'] at h1
          have hemp : htEntries emptyHt = [] := rfl
          rw [hemp] at h1
          simp at h1
      rw [hres]
      refine ⟨⟨hw10, hw11, hnd1, hrs1⟩, hit1, ?_, ?_, ?_⟩
      · intro hcon
        simp at hcon
      · intro _
        exact ⟨fun hm => hnotmem ((hperm1.map DictEntry.key).mem_iff.mpr hm),
          hperm1⟩
      · intro hre hu _
        exact hstepmono hre hu
  · -- unlink from the T[0] bucket
    obtain ⟨hw0', hek, hperm'⟩ := htRemove_wf h d1.ht0 hw10 k e rest hrem0
    have hres : dictDelete h d k =
        ({ d1 with ht0 := { d1.ht0 with
             table := d1.ht0.table.set (htIndex d1.ht0 (h k)) rest
             used := d1.ht0.used - 1 } }, true) := by
      rw [hdel, hrem0]
    rw [hres]
    have hpermd : List.Perm (dictEntries d1)
        (e :: dictEntries ({ d1 with ht0 := { d1.ht0 with
           table := d1.ht0.table.set (htIndex d1.ht0 (h k)) rest
           used := d1.ht0.used - 1 } } : Dict)) := by
      show List.Perm (htEntries d1.ht0 ++ htEntries d1.ht1)
        ((e :: htEntries ({ d1.ht0 with
           table := d1.ht0.table.set (htIndex d1.ht0 (h k)) rest
           used := d1.ht0.used - 1 } : Dictht)) ++ htEntries d1.ht1)
      exact List.Perm.append_right _ hperm'
    have hnd' : (dictKeys ({ d1 with ht0 := { d1.ht0 with
        table := d1.ht0.table.set (htIndex d1.ht0 (h k)) rest
        used := d1.ht0.used - 1 } } : Dict)).Nodup := by
      have hkp := hpermd.map DictEntry.key
      rw [List.map_cons] at hkp
      have := (hkp.nodup_iff).mp hnd1
      exact (List.nodup_cons.mp this).2
    have hbne : htBucket d1.ht0 (htIndex d1.ht0 (h k)) ≠ [] := by
      intro hnil
      rw [hnil] at hrem0
      cases hrem0
    refine ⟨⟨hw0', hw11, hnd', ?_⟩, hit1, ?_, ?_, ?_⟩
    · by_cases hne1 : d1.rehashidx = -1
      · rw [if_pos (by exact hne1)]
        rw [if_pos hne1] at hrs1
        exact hrs1
      · rw [if_neg (by exact hne1)]
        rw [if_neg hne1] at hrs1
        obtain ⟨hb0, hb1, hbsz0, hbsz1, hbpre⟩ := hrs1
        have hige : d1.rehashidx.toNat ≤ htIndex d1.ht0 (h k) := by
          by_contra hlt
          exact hbne (hbpre _ (by omega))
        refine ⟨hb0, ?_, ?_, hbsz1, ?_⟩
        · show d1.rehashidx.toNat ≤ d1.ht0.size
          exact hb1
        · show d1.ht0.size ≠ 0
          exact hbsz0
        · intro m hm
          have hm' : m < d1.rehashidx.toNat := hm
          show (d1.ht0.table.set (htIndex d1.ht0 (h k)) rest).getD m [] = []
          rw [getD_set_ne d1.ht0.table _ m rest [] (by omega)]
          exact hbpre m hm'
    · intro _
      exact ⟨e, hek, hperm1.symm.trans hpermd⟩
    · intro hcon
      simp at hcon
    · intro hre hu _
      show d1.ht0.used - 1 ≤ d.ht0.used
      have := hstepmono hre hu
      omega

lemma getD_map_nil {α β : Type} (f : List α → List β) (hf : f [] = [])
    (l : List (List α)) (i : Nat) :
    (l.map f).getD i [] = f (l.getD i []) := by
  induction l generalizing i with
  | nil => simp [hf]
  | cons x xs ih =>
    cases i with
    | zero => rfl
    | succ j => simpa using ih j

/-- The per-entry value overwrite `dictSetValForKey` applies. -/
def updEntry (k v : Nat) (e : DictEntry) : DictEntry :=
  if e.key = k then { e with v := v } else e

lemma updEntry_key (k v : Nat) (e : DictEntry) :
    (updEntry k v e).key = e.key := by
  unfold updEntry
  split <;> rfl

lemma dictSetValForKey_entries (d : Dict) (k v : Nat) :
    dictEntries (dictSetValForKey d k v) =
      (dictEntries d).map (updEntry k v) := by
  show (d.ht0.table.map (List.map (updEntry k v))).flatten ++
      (d.ht1.table.map (List.map (updEntry k v))).flatten =
    (d.ht0.table.flatten ++ d.ht1.table.flatten).map (updEntry k v)
  rw [List.map_append, ← List.map_flatten, ← List.map_flatten]

lemma htSetVal_wf (h : Nat → Nat) (t : Dictht) (k v : Nat) (hwf : htWF h t) :
    htWF h { t with table := t.table.map (List.map (updEntry k v)) } := by
  obtain ⟨h1, h2, h3, h4, h5⟩ := hwf
  refine ⟨?_, h2, h3, ?_, ?_⟩
  · show t.size = (t.table.map (List.map (updEntry k v))).length
    rw [List.length_map]
    exact h1
  · show t.used = ((t.table.map (List.map (updEntry k v))).map List.length).sum
    rw [List.map_map]
    have : (List.length ∘ List.map (updEntry k v)) = List.length := by
      funext b
      simp
    rw [this]
    exact h4
  · intro i hi e' he'
    have hi2 : i < t.table.length := by
      have hl : (t.table.map (List.map (updEntry k v))).length = t.table.length :=
        List.length_map _ _
      have hi' : i < (t.table.map (List.map (updEntry k v))).length := hi
      omega
    have he2 : e' ∈ (t.table.map (List.map (updEntry k v))).getD i [] := he'
    rw [getD_map_nil (List.map (updEntry k v)) rfl] at he2
    obtain ⟨e₀, he₀, hupd⟩ := List.mem_map.mp he2
    show htIndex t (h e'.key) = i
    rw [← hupd, updEntry_key]
    exact h5 i hi2 e₀ he₀

lemma dictSetValForKey_wf (h : Nat → Nat) (d : Dict) (k v : Nat)
    (hwf : dictWF h d) : dictWF h (dictSetValForKey d k v) ∧
    (dictSetValForKey d k v).iterators = d.iterators ∧
    dictKeys (dictSetValForKey d k v) = dictKeys d := by
  obtain ⟨hw0, hw1, hnd, hrs⟩ := hwf
  have hkeys : dictKeys (dictSetValForKey d k v) = dictKeys d := by
    unfold dictKeys
    rw [dictSetValForKey_entries, List.map_map]
    refine List.map_congr_left ?_
    intro e _
    exact updEntry_key k v e
  refine ⟨⟨htSetVal_wf h d.ht0 k v hw0, htSetVal_wf h d.ht1 k v hw1,
    by rw [hkeys]; exact hnd, ?_⟩, rfl, hkeys⟩
  by_cases hne : d.rehashidx = -1
  · rw [if_pos (by exact hne)]
    rw [if_pos hne] at hrs
    show ({ d.ht1 with table := d.ht1.table.map (List.map (updEntry k v)) }
      : Dictht) = emptyHt
    rw [hrs]
    rfl
  · rw [if_neg (by exact hne)]
    rw [if_neg hne] at hrs
    obtain ⟨hb0, hb1, hbsz0, hbsz1, hbpre⟩ := hrs
    refine ⟨hb0, hb1, hbsz0, hbsz1, ?_⟩
    intro m hm
    have hm' : m < d.rehashidx.toNat := hm
    show (d.ht0.table.map (List.map (updEntry k v))).getD m [] = []
    rw [getD_map_nil (List.map (updEntry k v)) rfl, hbpre m hm']
    rfl

/-- The key/value-pair view of the value overwrite. -/
def updPair (k v : Nat) (p : Nat × Nat) : Nat × Nat :=
  if p.1 = k then (k, v) else p

lemma entryPair_updEntry (k v : Nat) (e : DictEntry) :
    entryPair (updEntry k v e) = updPair k v (entryPair e) := by
  unfold entryPair updEntry updPair
  by_cases hk : e.key = k
  · rw [if_pos hk]
    show (e.key, v) = if e.key = k then (k, v) else (e.key, e.v)
    rw [if_pos hk, hk]
  · rw [if_neg hk]
    show (e.key, e.v) = if e.key = k then (k, v) else (e.key, e.v)
    rw [if_neg hk]

lemma dictReplace_spec (h : Nat → Nat) (cr : Bool) (d : Dict) (k v : Nat)
    (hwf : dictWF h d) :
    dictWF h (dictReplace h cr d k v).1 ∧
    (dictReplace h cr d k v).1.iterators = d.iterators ∧
    (k ∉ dictKeys d →
      (dictReplace h cr d k v).2.1 = true ∧
      (dictReplace h cr d k v).2.2 = [ValEvent.valDup v] ∧
      List.Perm (dictPairs (dictReplace h cr d k v).1)
        ((k, v) :: dictPairs d)) ∧
    (∀ e₀ ∈ dictEntries d, e₀.key = k →
      (dictReplace h cr d k v).2.1 = false ∧
      (dictReplace h cr d k v).2.2 =
        [ValEvent.valDestructor e₀.v, ValEvent.valDup v] ∧
      List.Perm (dictPairs (dictReplace h cr d k v).1)
        ((dictPairs d).map (updPair k v))) ∧
    ((dictKeys (dictReplace h cr d k v).1).count k = 1) := by
  obtain ⟨hwfA, hitA, htrue, hfalse, _, _⟩ := dictAdd_spec h cr d k v hwf
  set p := dictAdd h cr d k v with hpdef
  have hrep : dictReplace h cr d k v =
      (if p.2 then (p.1, true, [ValEvent.valDup v])
       else match dictFindSearch h p.1 k with
         | some e => (dictSetValForKey p.1 k v, false,
             [ValEvent.valDestructor e.v, ValEvent.valDup v])
         | none => (p.1, false, ([] : List ValEvent))) := rfl
  by_cases hp2 : p.2 = true
  · obtain ⟨hnot, hperm⟩ := htrue hp2
    rw [hrep, if_pos hp2]
    have hpairs : List.Perm (dictPairs p.1) ((k, v) :: dictPairs d) := by
      have := hperm.map entryPair
      rw [List.map_cons] at this
      exact this
    refine ⟨hwfA, hitA, ?_, ?_, ?_⟩
    · intro _
      exact ⟨rfl, rfl, hpairs⟩
    · intro e₀ he₀ hek
      exact absurd ((mem_dictKeys d k).mpr ⟨e₀, he₀, hek⟩) hnot
    · have hkp : List.Perm (dictKeys p.1) (k :: dictKeys d) := by
        have := hperm.map DictEntry.key
        rw [List.map_cons] at this
        exact this
      rw [hkp.count_eq]
      rw [List.count_cons_self]
      rw [List.count_eq_zero_of_not_mem hnot]
  · have hp2f : p.2 = false := by
      rcases hb : p.2 with _ | _
      · rfl
      · exact absurd hb hp2
    obtain ⟨hmem, hperm⟩ := hfalse hp2f
    rw [hrep, if_neg hp2]
    have hmem1 : k ∈ dictKeys p.1 := (hperm.map DictEntry.key).mem_iff.mpr hmem
    obtain ⟨ep, hep, hepk⟩ := (mem_dictKeys p.1 k).mp hmem1
    have hfindeq : dictFindSearch h p.1 k = some ep :=
      dictFindSearch_some h p.1 k hwfA ep hep hepk
    rw [hfindeq]
    obtain ⟨hwfS, hitS, hkeysS⟩ := dictSetValForKey_wf h p.1 k v hwfA
    have hpairsS : dictPairs (dictSetValForKey p.1 k v) =
        (dictPairs p.1).map (updPair k v) := by
      unfold dictPairs
      rw [dictSetValForKey_entries, List.map_map, List.map_map]
      refine List.map_congr_left ?_
      intro e _
      exact entryPair_updEntry k v e
    refine ⟨hwfS, hitS.trans hitA, ?_, ?_, ?_⟩
    · intro hnot
      exact absurd hmem hnot
    · intro e₀ he₀ hek
      have hepd : ep ∈ dictEntries d := hperm.mem_iff.mp hep
      have hnd := hwf.2.2.1
      have hee : ep = e₀ := nodup_keys_eq hnd hepd he₀ (by rw [hepk, hek])
      refine ⟨rfl, by rw [hee], ?_⟩
      rw [hpairsS]
      exact (hperm.map entryPair).map (updPair k v)
    · rw [hkeysS]
      have hnd1 : (dictKeys p.1).Nodup := hwfA.2.2.1
      have hle := (List.nodup_iff_count_le_one.mp hnd1) k
      have hpos : 0 < (dictKeys p.1).count k := List.count_pos_iff.mpr hmem1
      omega

lemma dictFind_spec (h : Nat → Nat) (d : Dict) (k : Nat) (hwf : dictWF h d) :
    dictWF h (dictFind h d k).1 ∧
    List.Perm (dictEntries (dictFind h d k).1) (dictEntries d) ∧
    (∀ e ∈ dictEntries d, e.key = k → (dictFind h d k).2 = some e) ∧
    (k ∉ dictKeys d → (dictFind h d k).2 = none) := by
  obtain ⟨hwf1, hperm1, hit1, _⟩ := steppedDict_wf h d hwf
  have hfind : dictFind h d k =
      (steppedDict h d, dictFindSearch h (steppedDict h d) k) := rfl
  rw [hfind]
  refine ⟨hwf1, hperm1, ?_, ?_⟩
  · intro e he hek
    exact dictFindSearch_some h (steppedDict h d) k hwf1 e
      (hperm1.mem_iff.mpr he) hek
  · intro hk
    exact dictFindSearch_none h (steppedDict h d) k
      (fun hm => hk ((hperm1.map DictEntry.key).mem_iff.mp hm))

/-- The mutating operations of claim C2. -/
inductive DictOp where
  | add (k v : Nat)
  | replace (k v : Nat)
  | del (k : Nat)
deriving DecidableEq, Repr

/-- Run a sequence of mutating operations left to right on a dictionary. -/
def runOps (h : Nat → Nat) (cr : Bool) : List DictOp → Dict → Dict
  | [], d => d
  | op :: ops, d =>
    runOps h cr ops
      (match op with
       | .add k v => (dictAdd h cr d k v).1
       | .replace k v => (dictReplace h cr d k v).1
       | .del k => (dictDelete h d k).1)

/-- The functional reference model of the spec's operation table: an
association list of the live key/value pairs. -/
def specRun : List DictOp → List (Nat × Nat) → List (Nat × Nat)
  | [], m => m
  | op :: ops, m =>
    specRun ops
      (match op with
       | .add k v => if m.any (fun p => p.1 = k) then m else (k, v) :: m
       | .replace k v =>
         if m.any (fun p => p.1 = k) then m.map (updPair k v) else (k, v) :: m
       | .del k => m.filter (fun p => ¬ p.1 = k))

lemma dictKeys_eq_pairs_fst (d : Dict) :
    dictKeys d = (dictPairs d).map Prod.fst := by
  unfold dictKeys dictPairs
  rw [List.map_map]
  rfl

lemma runOps_invariant (h : Nat → Nat) (cr : Bool) (ops : List DictOp) :
    ∀ (d : Dict) (m : List (Nat × Nat)), dictWF h d →
      List.Perm (dictPairs d) m →
      dictWF h (runOps h cr ops d) ∧
      List.Perm (dictPairs (runOps h cr ops d)) (specRun ops m) := by
  induction ops with
  | nil =>
    intro d m hwf hperm
    exact ⟨hwf, hperm⟩
  | cons op ops ih =>
    intro d m hwf hperm
    have hkeysm : List.Perm (dictKeys d) (m.map Prod.fst) := by
      rw [dictKeys_eq_pairs_fst]
      exact hperm.map Prod.fst
    have hmemiff : ∀ k, k ∈ dictKeys d ↔ (m.any (fun p => p.1 = k)) = true := by
      intro k
      rw [hkeysm.mem_iff]
      simp [List.any_eq_true, List.mem_map]
    cases op with
    | add k v =>
      show dictWF h (runOps h cr ops (dictAdd h cr d k v).1) ∧
        List.Perm (dictPairs (runOps h cr ops (dictAdd h cr d k v).1))
          (specRun ops (if m.any (fun p => p.1 = k) then m else (k, v) :: m))
      obtain ⟨hwfA, _, htrue, hfalse, _, _⟩ := dictAdd_spec h cr d k v hwf
      by_cases hmem : k ∈ dictKeys d
      · have hany : (m.any (fun p => p.1 = k)) = true := (hmemiff k).mp hmem
        rw [if_pos hany]
        have hp2 : (dictAdd h cr d k v).2 = false := by
          rcases hb : (dictAdd h cr d k v).2 with _ | _
          · rfl
          · exact absurd hmem (htrue hb).1
        obtain ⟨_, hpermA⟩ := hfalse hp2
        exact ih _ m hwfA ((hpermA.map entryPair).trans hperm)
      · have hany : ¬ (m.any (fun p => p.1 = k)) = true :=
          fun hc => hmem ((hmemiff k).mpr hc)
        rw [if_neg hany]
        have hp2 : (dictAdd h cr d k v).2 = true := by
          rcases hb : (dictAdd h cr d k v).2 with _ | _
          · exact absurd ((hfalse hb).1) hmem
          · rfl
        obtain ⟨_, hpermA⟩ := htrue hp2
        refine ih _ ((k, v) :: m) hwfA ?_
        have := hpermA.map entryPair
        rw [List.map_cons] at this
        exact this.trans (hperm.cons (k, v))
    | replace k v =>
      show dictWF h (runOps h cr ops (dictReplace h cr d k v).1) ∧
        List.Perm (dictPairs (runOps h cr ops (dictReplace h cr d k v).1))
          (specRun ops (if m.any (fun p => p.1 = k) then m.map (updPair k v)
            else (k, v) :: m))
      obtain ⟨hwfR, _, habs, hpres, _⟩ := dictReplace_spec h cr d k v hwf
      by_cases hmem : k ∈ dictKeys d
      · have hany : (m.any (fun p => p.1 = k)) = true := (hmemiff k).mp hmem
        rw [if_pos hany]
        obtain ⟨e₀, he₀, hek⟩ := (mem_dictKeys d k).mp hmem
        obtain ⟨_, _, hpermR⟩ := hpres e₀ he₀ hek
        refine ih _ (m.map (updPair k v)) hwfR ?_
        exact hpermR.trans (hperm.map (updPair k v))
      · have hany : ¬ (m.any (fun p => p.1 = k)) = true :=
          fun hc => hmem ((hmemiff k).mpr hc)
        rw [if_neg hany]
        obtain ⟨_, _, hpermR⟩ := habs hmem
        exact ih _ ((k, v) :: m) hwfR (hpermR.trans (hperm.cons (k, v)))
    | del k =>
      show dictWF h (runOps h cr ops (dictDelete h d k).1) ∧
        List.Perm (dictPairs (runOps h cr ops (dictDelete h d k).1))
          (specRun ops (m.filter (fun p => ¬ p.1 = k)))
      obtain ⟨hwfD, _, htrue, hfalse, _⟩ := dictDelete_spec h d k hwf
      rcases hb : (dictDelete h d k).2 with _ | _
      · obtain ⟨hnot, hpermD⟩ := hfalse hb
        have hfilter : m.filter (fun p => ¬ p.1 = k) = m := by
          rw [List.filter_eq_self]
          intro p hp
          have : p.1 ∈ m.map Prod.fst := List.mem_map_of_mem Prod.fst hp
          have hne : p.1 ≠ k := by
            intro hc
            exact hnot (hkeysm.mem_iff.mpr (hc ▸ this))
          simpa using hne
        rw [hfilter]
        exact ih _ m hwfD ((hpermD.map entryPair).trans hperm)
      · obtain ⟨e, hek, hpermD⟩ := htrue hb
        have hpairs : List.Perm m
            ((k, e.v) :: dictPairs (dictDelete h d k).1) := by
          have := hpermD.map entryPair
          rw [List.map_cons] at this
          have he2 : entryPair e = (k, e.v) := by
            unfold entryPair
            rw [hek]
          rw [he2] at this
          exact hperm.symm.trans this
        have hknot : k ∉ dictKeys (dictDelete h d k).1 := by
          have hkp := hpermD.map DictEntry.key
          rw [List.map_cons, hek] at hkp
          have hnd : (dictKeys d).Nodup := hwf.2.2.1
          have := (hkp.nodup_iff).mp hnd
          exact (List.nodup_cons.mp this).1
        have hfil : List.Perm (m.filter (fun p => ¬ p.1 = k))
            (dictPairs (dictDelete h d k).1) := by
          have hstep := hpairs.filter (fun p => decide (¬ p.1 = k))
          rw [List.filter_cons_of_neg (by simp)] at hstep
          have hself : (dictPairs (dictDelete h d k).1).filter
              (fun p => decide (¬ p.1 = k)) = dictPairs (dictDelete h d k).1 := by
            rw [List.filter_eq_self]
            intro p hp
            have : p.1 ∈ (dictPairs (dictDelete h d k).1).map Prod.fst :=
              List.mem_map_of_mem Prod.fst hp
            rw [← dictKeys_eq_pairs_fst] at this
            have hne : p.1 ≠ k := fun hc => hknot (hc ▸ this)
            simpa using hne
          rw [hself] at hstep
          exact hstep
        exact ih _ _ hwfD hfil.symm

lemma dictCreate_wf (h : Nat → Nat) : dictWF h dictCreate := by
  refine ⟨htWF_emptyHt h, htWF_emptyHt h, ?_, ?_⟩
  · show ([] : List Nat).Nodup
    exact List.nodup_nil
  · show (if (-1 : Int) = -1 then dictCreate.ht1 = emptyHt else _ : Prop)
    rw [if_pos rfl]
    rfl

/-- C2: starting from a fresh dictionary, any sequence of `add`, `replace`
and `delete` operations leaves `T[0].used + T[1].used` equal to the number
of distinct live keys of the functional reference model, and `find`
returns the stored entry (right key and value) for every live key and
`none` for every absent key. -/
theorem dict_operations_refine_model (h : Nat → Nat) (cr : Bool)
    (ops : List DictOp) (k : Nat) :
    dictSize (runOps h cr ops dictCreate) = (specRun ops []).length ∧
    ((specRun ops []).map Prod.fst).Nodup ∧
    (∀ w, (k, w) ∈ specRun ops [] →
      ∃ e, (dictFind h (runOps h cr ops dictCreate) k).2 = some e ∧
        e.key = k ∧ e.v = w) ∧
    (k ∉ (specRun ops []).map Prod.fst →
      (dictFind h (runOps h cr ops dictCreate) k).2 = none) := by
  have hpermc : List.Perm (dictPairs dictCreate) [] := List.Perm.refl []
  obtain ⟨hwfF, hpermF⟩ :=
    runOps_invariant h cr ops dictCreate [] (dictCreate_wf h) hpermc
  have hkeysF : List.Perm (dictKeys (runOps h cr ops dictCreate))
      ((specRun ops []).map Prod.fst) := by
    rw [dictKeys_eq_pairs_fst]
    exact hpermF.map Prod.fst
  obtain ⟨hfwf, hfperm, hfsome, hfnone⟩ :=
    dictFind_spec h (runOps h cr ops dictCreate) k hwfF
  refine ⟨?_, ?_, ?_, ?_⟩
  · have hlen := hpermF.length_eq
    unfold dictPairs at hlen
    rw [List.length_map] at hlen
    unfold dictSize
    rw [htUsed_eq_length h _ hwfF.1, htUsed_eq_length h _ hwfF.2.1]
    unfold dictEntries at hlen
    rw [List.length_append] at hlen
    exact hlen
  · exact (hkeysF.nodup_iff).mp hwfF.2.2.1
  · intro w hw
    have hpair : (k, w) ∈ dictPairs (runOps h cr ops dictCreate) :=
      hpermF.mem_iff.mpr hw
    obtain ⟨e, he, hpe⟩ := List.mem_map.mp hpair
    have hek : e.key = k := congrArg Prod.fst hpe
    have hev : e.v = w := congrArg Prod.snd hpe
    exact ⟨e, hfsome e he hek, hek, hev⟩
  · intro hk
    exact hfnone (fun hm => hk (hkeysF.mem_iff.mp hm))

/-- C4: `dictReplace` inserts and reports an insertion when the key is
absent; when the key is present it destructs the old value first and then
overwrites the entry's value, reporting no insertion; in both cases
exactly one entry for the key remains. -/
theorem dictReplace_semantics (h : Nat → Nat) (cr : Bool) (d : Dict)
    (k v : Nat) (hwf : dictWF h d) :
    (k ∉ dictKeys d →
      (dictReplace h cr d k v).2.1 = true ∧
      List.Perm (dictPairs (dictReplace h cr d k v).1)
        ((k, v) :: dictPairs d)) ∧
    (∀ e₀ ∈ dictEntries d, e₀.key = k →
      (dictReplace h cr d k v).2.1 = false ∧
      (dictReplace h cr d k v).2.2 =
        [ValEvent.valDestructor e₀.v, ValEvent.valDup v] ∧
      List.Perm (dictPairs (dictReplace h cr d k v).1)
        ((dictPairs d).map (updPair k v))) ∧
    (dictKeys (dictReplace h cr d k v).1).count k = 1 := by
  obtain ⟨_, _, habs, hpres, hcount⟩ := dictReplace_spec h cr d k v hwf
  refine ⟨?_, hpres, hcount⟩
  intro hnot
  obtain ⟨h1, _, h3⟩ := habs hnot
  exact ⟨h1, h3⟩

/-- Witness for C4 on a concrete dictionary holding key 2. -/
theorem dictReplace_semantics_witness :
    dictWF id (⟨⟨[[], [], [⟨2, 9⟩], []], 4, 3, 1⟩, emptyHt, -1, 0⟩ : Dict) ∧
    ((2 ∉ dictKeys (⟨⟨[[], [], [⟨2, 9⟩], []], 4, 3, 1⟩, emptyHt, -1, 0⟩ : Dict) →
        (dictReplace id true ⟨⟨[[], [], [⟨2, 9⟩], []], 4, 3, 1⟩, emptyHt, -1, 0⟩ 2 7).2.1 = true ∧
        List.Perm
          (dictPairs (dictReplace id true ⟨⟨[[], [], [⟨2, 9⟩], []], 4, 3, 1⟩, emptyHt, -1, 0⟩ 2 7).1)
          ((2, 7) :: dictPairs (⟨⟨[[], [], [⟨2, 9⟩], []], 4, 3, 1⟩, emptyHt, -1, 0⟩ : Dict))) ∧
      (∀ e₀ ∈ dictEntries (⟨⟨[[], [], [⟨2, 9⟩], []], 4, 3, 1⟩, emptyHt, -1, 0⟩ : Dict),
        e₀.key = 2 →
        (dictReplace id true ⟨⟨[[], [], [⟨2, 9⟩], []], 4, 3, 1⟩, emptyHt, -1, 0⟩ 2 7).2.1 = false ∧
        (dictReplace id true ⟨⟨[[], [], [⟨2, 9⟩], []], 4, 3, 1⟩, emptyHt, -1, 0⟩ 2 7).2.2 =
          [ValEvent.valDestructor e₀.v, ValEvent.valDup 7] ∧
        List.Perm
          (dictPairs (dictReplace id true ⟨⟨[[], [], [⟨2, 9⟩], []], 4, 3, 1⟩, emptyHt, -1, 0⟩ 2 7).1)
          ((dictPairs (⟨⟨[[], [], [⟨2, 9⟩], []], 4, 3, 1⟩, emptyHt, -1, 0⟩ : Dict)).map
            (updPair 2 7))) ∧
      (dictKeys (dictReplace id true ⟨⟨[[], [], [⟨2, 9⟩], []], 4, 3, 1⟩, emptyHt, -1, 0⟩ 2 7).1).count 2 = 1) :=
  ⟨by decide,
    dictReplace_semantics id true ⟨⟨[[], [], [⟨2, 9⟩], []], 4, 3, 1⟩, emptyHt, -1, 0⟩ 2 7
      (by decide)⟩

/-- C1: while rehashing, lookup searches the key's `T[0]` bucket first and
falls back to its `T[1]` bucket; a successful insert whose result is still
rehashing placed its entry in `T[1]`; delete reaches keys in either table
(it succeeds exactly on the live keys); add, find and delete never
increase `T[0]`'s entry count while the same rehash is still running; and
once `T[0]`'s last entry is gone, the next rehash step frees `T[0]`,
promotes `T[1]` into `T[0]`, clears `T[1]` and resets `rehashidx` to −1. -/
theorem dict_incremental_rehash_spec (h : Nat → Nat) (cr : Bool) (d : Dict)
    (hwf : dictWF h d) (hre : dictIsRehashing d = true) :
    (∀ k, dictFindSearch h d k =
      Option.or (bucketFind k (htBucket d.ht0 (htIndex d.ht0 (h k))))
        (bucketFind k (htBucket d.ht1 (htIndex d.ht1 (h k))))) ∧
    (∀ k v, (dictAdd h cr d k v).2 = true →
      dictIsRehashing (dictAdd h cr d k v).1 = true →
      (⟨k, v⟩ : DictEntry) ∈ htEntries (dictAdd h cr d k v).1.ht1) ∧
    (∀ k, (dictDelete h d k).2 = true ↔ k ∈ dictKeys d) ∧
    (0 < d.ht0.used →
      (∀ k v, dictIsRehashing (dictAdd h cr d k v).1 = true →
        (dictAdd h cr d k v).1.ht0.used ≤ d.ht0.used) ∧
      (∀ k, dictIsRehashing (dictFind h d k).1 = true →
        (dictFind h d k).1.ht0.used ≤ d.ht0.used) ∧
      (∀ k, dictIsRehashing (dictDelete h d k).1 = true →
        (dictDelete h d k).1.ht0.used ≤ d.ht0.used)) ∧
    (d.iterators = 0 → d.ht0.used = 0 →
      dictRehash h d 1 = (⟨d.ht1, emptyHt, -1, d.iterators⟩, 0)) := by
  refine ⟨?_, ?_, ?_, ?_, ?_⟩
  · intro k
    unfold dictFindSearch
    rcases hb : bucketFind k (htBucket d.ht0 (htIndex d.ht0 (h k))) with _ | e
    · show (if dictIsRehashing d = true then
          bucketFind k (htBucket d.ht1 (htIndex d.ht1 (h k))) else none) =
        Option.or none (bucketFind k (htBucket d.ht1 (htIndex d.ht1 (h k))))
      rw [if_pos hre]
      rfl
    · rfl
  · intro k v h1 h2
    exact (dictAdd_spec h cr d k v hwf).2.2.2.2.2 h1 h2
  · intro k
    obtain ⟨_, _, htrue, hfalse, _⟩ := dictDelete_spec h d k hwf
    constructor
    · intro hb
      obtain ⟨e, hek, hperm⟩ := htrue hb
      exact (mem_dictKeys d k).mpr
        ⟨e, hperm.symm.mem_iff.mp (List.mem_cons_self _ _), hek⟩
    · intro hmem
      rcases hb : (dictDelete h d k).2 with _ | _
      · exact absurd hmem (hfalse hb).1
      · rfl
  · intro hu
    refine ⟨?_, ?_, ?_⟩
    · intro k v h2
      exact (dictAdd_spec h cr d k v hwf).2.2.2.2.1 hre (by omega) h2
    · intro k h2
      obtain ⟨_, hperm1, _, hmono1⟩ := steppedDict_wf h d hwf
      have hfind : (dictFind h d k).1 = steppedDict h d := rfl
      rw [hfind] at h2 ⊢
      exact hmono1 h2
    · intro k h2
      exact (dictDelete_spec h d k hwf).2.2.2.2 hre (by omega) h2
  · intro hit hz
    unfold dictRehash
    rw [if_neg (by omega), if_neg (by simp [hre])]
    show (if d.ht0.used = 0 then _ else _) = _
    rw [if_pos hz]

/-- Witness for C1 on a concrete mid-rehash dictionary. -/
theorem dict_incremental_rehash_spec_witness :
    dictWF id (⟨⟨[[], [⟨1, 5⟩]], 2, 1, 1⟩, ⟨[[], [], [], []], 4, 3, 0⟩, 0, 0⟩ : Dict) ∧
    dictIsRehashing
      (⟨⟨[[], [⟨1, 5⟩]], 2, 1, 1⟩, ⟨[[], [], [], []], 4, 3, 0⟩, 0, 0⟩ : Dict) = true ∧
    ((∀ k, dictFindSearch id
        (⟨⟨[[], [⟨1, 5⟩]], 2, 1, 1⟩, ⟨[[], [], [], []], 4, 3, 0⟩, 0, 0⟩ : Dict) k =
      Option.or
        (bucketFind k (htBucket (⟨[[], [⟨1, 5⟩]], 2, 1, 1⟩ : Dictht)
          (htIndex (⟨[[], [⟨1, 5⟩]], 2, 1, 1⟩ : Dictht) (id k))))
        (bucketFind k (htBucket (⟨[[], [], [], []], 4, 3, 0⟩ : Dictht)
          (htIndex (⟨[[], [], [], []], 4, 3, 0⟩ : Dictht) (id k))))) ∧
    (∀ k v, (dictAdd id true
        (⟨⟨[[], [⟨1, 5⟩]], 2, 1, 1⟩, ⟨[[], [], [], []], 4, 3, 0⟩, 0, 0⟩ : Dict) k v).2 = true →
      dictIsRehashing (dictAdd id true
        (⟨⟨[[], [⟨1, 5⟩]], 2, 1, 1⟩, ⟨[[], [], [], []], 4, 3, 0⟩, 0, 0⟩ : Dict) k v).1 = true →
      (⟨k, v⟩ : DictEntry) ∈ htEntries (dictAdd id true
        (⟨⟨[[], [⟨1, 5⟩]], 2, 1, 1⟩, ⟨[[], [], [], []], 4, 3, 0⟩, 0, 0⟩ : Dict) k v).1.ht1) ∧
    (∀ k, (dictDelete id
        (⟨⟨[[], [⟨1, 5⟩]], 2, 1, 1⟩, ⟨[[], [], [], []], 4, 3, 0⟩, 0, 0⟩ : Dict) k).2 = true ↔
      k ∈ dictKeys (⟨⟨[[], [⟨1, 5⟩]], 2, 1, 1⟩, ⟨[[], [], [], []], 4, 3, 0⟩, 0, 0⟩ : Dict)) ∧
    (0 < (⟨⟨[[], [⟨1, 5⟩]], 2, 1, 1⟩, ⟨[[], [], [], []], 4, 3, 0⟩, 0, 0⟩ : Dict).ht0.used →
      (∀ k v, dictIsRehashing (dictAdd id true
          (⟨⟨[[], [⟨1, 5⟩]], 2, 1, 1⟩, ⟨[[], [], [], []], 4, 3, 0⟩, 0, 0⟩ : Dict) k v).1 = true →
        (dictAdd id true
          (⟨⟨[[], [⟨1, 5⟩]], 2, 1, 1⟩, ⟨[[], [], [], []], 4, 3, 0⟩, 0, 0⟩ : Dict) k v).1.ht0.used ≤ 1) ∧
      (∀ k, dictIsRehashing (dictFind id
          (⟨⟨[[], [⟨1, 5⟩]], 2, 1, 1⟩, ⟨[[], [], [], []], 4, 3, 0⟩, 0, 0⟩ : Dict) k).1 = true →
        (dictFind id
          (⟨⟨[[], [⟨1, 5⟩]], 2, 1, 1⟩, ⟨[[], [], [], []], 4, 3, 0⟩, 0, 0⟩ : Dict) k).1.ht0.used ≤ 1) ∧
      (∀ k, dictIsRehashing (dictDelete id
          (⟨⟨[[], [⟨1, 5⟩]], 2, 1, 1⟩, ⟨[[], [], [], []], 4, 3, 0⟩, 0, 0⟩ : Dict) k).1 = true →
        (dictDelete id
          (⟨⟨[[], [⟨1, 5⟩]], 2, 1, 1⟩, ⟨[[], [], [], []], 4, 3, 0⟩, 0, 0⟩ : Dict) k).1.ht0.used ≤ 1)) ∧
    ((⟨⟨[[], [⟨1, 5⟩]], 2, 1, 1⟩, ⟨[[], [], [], []], 4, 3, 0⟩, 0, 0⟩ : Dict).iterators = 0 →
      (⟨⟨[[], [⟨1, 5⟩]], 2, 1, 1⟩, ⟨[[], [], [], []], 4, 3, 0⟩, 0, 0⟩ : Dict).ht0.used = 0 →
      dictRehash id (⟨⟨[[], [⟨1, 5⟩]], 2, 1, 1⟩, ⟨[[], [], [], []], 4, 3, 0⟩, 0, 0⟩ : Dict) 1 =
        (⟨⟨[[], [], [], []], 4, 3, 0⟩, emptyHt, -1, 0⟩, 0))) :=
  ⟨by decide, by decide,
    dict_incremental_rehash_spec id true
      ⟨⟨[[], [⟨1, 5⟩]], 2, 1, 1⟩, ⟨[[], [], [], []], 4, 3, 0⟩, 0, 0⟩
      (by decide) (by decide)⟩

/- ------------------- scan: reverse-binary cursor arithmetic ------------------- -/

lemma bitRev_lt (b : Nat) : ∀ v, bitRev b v < 2 ^ b := by
  induction b with
  | zero => intro v; simp [bitRev]
  | succ b ih =>
    intro v
    show (v % 2) * 2 ^ b + bitRev b (v / 2) < 2 ^ (b + 1)
    have h1 := ih (v / 2)
    have h2 : v % 2 < 2 := Nat.mod_lt _ (by norm_num)
    have h3 : 2 ^ (b + 1) = 2 ^ b + 2 ^ b := by
      rw [Nat.pow_succ]
      omega
    have h4 : (v % 2) * 2 ^ b ≤ 1 * 2 ^ b :=
      Nat.mul_le_mul_right _ (by omega)
    rw [Nat.one_mul] at h4
    omega

lemma bitRev_zero (b : Nat) : bitRev b 0 = 0 := by
  induction b with
  | zero => rfl
  | succ b ih =>
    show (0 % 2) * 2 ^ b + bitRev b (0 / 2) = 0
    simpa using ih

lemma bitRev_split (b : Nat) :
    ∀ (c : Nat) (x : Nat),
      bitRev (b + c) x = bitRev b (x % 2 ^ b) * 2 ^ c + bitRev c (x / 2 ^ b) := by
  induction b with
  | zero =>
    intro c x
    simp [bitRev]
  | succ b ih =>
    intro c x
    have hL : bitRev (b + 1 + c) x =
        (x % 2) * 2 ^ (b + c) + bitRev (b + c) (x / 2) := by
      have harith : b + 1 + c = (b + c) + 1 := by omega
      rw [harith]
      rfl
    rw [hL, ih c (x / 2)]
    have hmod2 : x % 2 ^ (b + 1) % 2 = x % 2 := by
      have : (2 : Nat) ∣ 2 ^ (b + 1) := Dvd.intro (2 ^ b) (by ring)
      exact Nat.mod_mod_of_dvd x this
    have hdivmod : x % 2 ^ (b + 1) / 2 = x / 2 % 2 ^ b := by
      have h2 : (2 : Nat) ^ (b + 1) = 2 * 2 ^ b := by ring
      rw [h2]
      exact Nat.mod_mul_right_div_self x 2 (2 ^ b)
    have hdivdiv : x / 2 ^ (b + 1) = x / 2 / 2 ^ b := by
      rw [Nat.div_div_eq_div_mul]
      congr 1
      ring
    have hR : bitRev (b + 1) (x % 2 ^ (b + 1)) =
        (x % 2) * 2 ^ b + bitRev b (x / 2 % 2 ^ b) := by
      show (x % 2 ^ (b + 1) % 2) * 2 ^ b + bitRev b (x % 2 ^ (b + 1) / 2) = _
      rw [hmod2, hdivmod]
    rw [hR, hdivdiv]
    have hpow : 2 ^ (b + c) = 2 ^ b * 2 ^ c := by
      rw [← Nat.pow_add]
    rw [hpow]
    ring

lemma bitRev_top (b : Nat) :
    ∀ x, x < 2 ^ b → bitRev (b + 1) x = 2 * bitRev b (x % 2 ^ b) + x / 2 ^ b := by
  intro x hx
  have := bitRev_split b 1 x
  have h1 : bitRev 1 (x / 2 ^ b) = x / 2 ^ b := by
    have hlt : x / 2 ^ b < 2 := by
      have : x / 2 ^ b = 0 := Nat.div_eq_of_lt hx
      omega
    show (x / 2 ^ b % 2) * 2 ^ 0 + bitRev 0 (x / 2 ^ b / 2) = x / 2 ^ b
    have : x / 2 ^ b % 2 = x / 2 ^ b := Nat.mod_eq_of_lt hlt
    simp [bitRev, this]
  rw [this, h1]
  ring

lemma bitRev_bitRev (b : Nat) : ∀ v, v < 2 ^ b → bitRev b (bitRev b v) = v := by
  induction b with
  | zero =>
    intro v hv
    have h0 : v = 0 := by
      have h1 : v < 1 := by simpa using hv
      omega
    subst h0
    rfl
  | succ b ih =>
    intro v hv
    have hrlt : bitRev b (v / 2) < 2 ^ b := bitRev_lt b (v / 2)
    have hp : (2 : Nat) ^ (b + 1) = 2 * 2 ^ b := by ring
    have hv2 : v / 2 < 2 ^ b := by omega
    have hr : bitRev (b + 1) v = v % 2 * 2 ^ b + bitRev b (v / 2) := rfl
    have hmod : (v % 2 * 2 ^ b + bitRev b (v / 2)) % 2 ^ b = bitRev b (v / 2) := by
      rw [Nat.mul_comm, Nat.mul_add_mod]
      exact Nat.mod_eq_of_lt hrlt
    have hdiv : (v % 2 * 2 ^ b + bitRev b (v / 2)) / 2 ^ b = v % 2 := by
      rw [Nat.add_comm, Nat.mul_comm]
      rw [Nat.add_mul_div_left _ _ (show (0 : Nat) < 2 ^ b by positivity)]
      rw [Nat.div_eq_of_lt hrlt]
      omega
    have h5 : bitRev 1 (v % 2) = v % 2 := by
      show v % 2 % 2 * 2 ^ 0 + bitRev 0 (v % 2 / 2) = v % 2
      have hb0 : bitRev 0 (v % 2 / 2) = 0 := rfl
      rw [hb0, pow_zero, Nat.mul_one, Nat.add_zero]
      omega
    rw [hr, bitRev_split b 1, hmod, hdiv, ih (v / 2) hv2, h5]
    have h21 : (2 : Nat) ^ 1 = 2 := rfl
    omega

lemma bitRev_inj (b x y : Nat) (hx : x < 2 ^ b) (hy : y < 2 ^ b)
    (h : bitRev b x = bitRev b y) : x = y := by
  have h2 := congrArg (bitRev b) h
  rwa [bitRev_bitRev b x hx, bitRev_bitRev b y hy] at h2

lemma bitRev_allones (b : Nat) : bitRev b (2 ^ b - 1) = 2 ^ b - 1 := by
  induction b with
  | zero => rfl
  | succ b ih =>
    have hp : (2 : Nat) ^ (b + 1) = 2 * 2 ^ b := by ring
    have hpos : (0 : Nat) < 2 ^ b := by positivity
    have h1 : (2 ^ (b + 1) - 1) % 2 = 1 := by omega
    have h2 : (2 ^ (b + 1) - 1) / 2 = 2 ^ b - 1 := by omega
    show (2 ^ (b + 1) - 1) % 2 * 2 ^ b + bitRev b ((2 ^ (b + 1) - 1) / 2) =
      2 ^ (b + 1) - 1
    rw [h1, h2, ih, Nat.one_mul]
    omega

lemma pred_mod (m K : Nat) (hm : 0 < m) (hK : 0 < K) :
    (K * m - 1) % m = m - 1 := by
  obtain ⟨k, rfl⟩ : ∃ k, K = k + 1 := ⟨K - 1, by omega⟩
  have e1 : (k + 1) * m = k * m + m := by ring
  rw [e1, Nat.add_sub_assoc hm (k * m), Nat.mul_comm k m, Nat.mul_add_mod]
  exact Nat.mod_eq_of_lt (by omega)

lemma pow_sub_one_mod (b B : Nat) (h : b ≤ B) :
    (2 ^ B - 1) % 2 ^ b = 2 ^ b - 1 := by
  have h1 : (2 : Nat) ^ B = 2 ^ (B - b) * 2 ^ b := by
    rw [← Nat.pow_add]
    congr 1
    omega
  rw [h1]
  exact pred_mod (2 ^ b) (2 ^ (B - b)) (by positivity) (by positivity)

lemma bitRev_window (W b : Nat) (hb : b ≤ W) (x : Nat) :
    bitRev b (x % 2 ^ b) * 2 ^ (W - b) ≤ bitRev W x ∧
    bitRev W x < bitRev b (x % 2 ^ b) * 2 ^ (W - b) + 2 ^ (W - b) := by
  have hWb : b + (W - b) = W := by omega
  have hs := bitRev_split b (W - b) x
  rw [hWb] at hs
  refine ⟨?lo, ?hi⟩
  · rw [hs]
    exact Nat.le_add_right _ _
  · rw [hs]
    exact Nat.add_lt_add_left (bitRev_lt (W - b) (x / 2 ^ b)) _

lemma window_mod_eq (W b : Nat) (hb : b ≤ W) (x v : Nat)
    (hlo : bitRev b (v % 2 ^ b) * 2 ^ (W - b) ≤ bitRev W x)
    (hhi : bitRev W x < bitRev b (v % 2 ^ b) * 2 ^ (W - b) + 2 ^ (W - b)) :
    x % 2 ^ b = v % 2 ^ b := by
  have hWb : b + (W - b) = W := by omega
  have hM : (0 : Nat) < 2 ^ (W - b) := by positivity
  have hs := bitRev_split b (W - b) x
  rw [hWb] at hs
  have hr := bitRev_lt (W - b) (x / 2 ^ b)
  have hdx : bitRev W x / 2 ^ (W - b) = bitRev b (x % 2 ^ b) := by
    rw [hs, Nat.add_comm, Nat.mul_comm, Nat.add_mul_div_left _ _ hM,
      Nat.div_eq_of_lt hr]
    omega
  have hdv : bitRev W x / 2 ^ (W - b) = bitRev b (v % 2 ^ b) := by
    apply Nat.div_eq_of_lt_le hlo
    calc bitRev W x < bitRev b (v % 2 ^ b) * 2 ^ (W - b) + 2 ^ (W - b) := hhi
      _ = (bitRev b (v % 2 ^ b) + 1) * 2 ^ (W - b) := by ring
  have hbx : x % 2 ^ b < 2 ^ b := Nat.mod_lt _ (by positivity)
  have hbv : v % 2 ^ b < 2 ^ b := Nat.mod_lt _ (by positivity)
  exact bitRev_inj b _ _ hbx hbv (by rw [← hdx, hdv])

lemma bitRev_of_lt (W B : Nat) (hBW : B ≤ W) (u : Nat) (hu : u < 2 ^ B) :
    bitRev W u = bitRev B u * 2 ^ (W - B) := by
  have hWb : B + (W - B) = W := by omega
  have hs := bitRev_split B (W - B) u
  rw [hWb] at hs
  rw [hs, Nat.mod_eq_of_lt hu, Nat.div_eq_of_lt hu, bitRev_zero, Nat.add_zero]

lemma scanNextCursor_lt (B v : Nat) : scanNextCursor B v < 2 ^ B :=
  bitRev_lt _ _

lemma scanNextCursor_rev (B v : Nat) :
    bitRev B (scanNextCursor B v) = (bitRev B (v % 2 ^ B) + 1) % 2 ^ B := by
  unfold scanNextCursor
  exact bitRev_bitRev B _ (Nat.mod_lt _ (by positivity))

lemma scanNextCursor_eq_zero_iff (B v : Nat) :
    scanNextCursor B v = 0 ↔ bitRev B (v % 2 ^ B) + 1 = 2 ^ B := by
  have hQ : bitRev B (v % 2 ^ B) < 2 ^ B := bitRev_lt _ _
  constructor
  · intro hz
    have h1 : bitRev B ((bitRev B (v % 2 ^ B) + 1) % 2 ^ B) = bitRev B 0 := by
      rw [bitRev_zero]
      exact hz
    have h2 : (bitRev B (v % 2 ^ B) + 1) % 2 ^ B = 0 :=
      bitRev_inj B _ _ (Nat.mod_lt _ (by positivity)) (by positivity) h1
    have h3 : 2 ^ B ∣ bitRev B (v % 2 ^ B) + 1 := Nat.dvd_of_mod_eq_zero h2
    have h4 : 2 ^ B ≤ bitRev B (v % 2 ^ B) + 1 := Nat.le_of_dvd (by omega) h3
    omega
  · intro he
    show bitRev B ((bitRev B (v % 2 ^ B) + 1) % 2 ^ B) = 0
    rw [he, Nat.mod_self, bitRev_zero]

/-- The single-call coverage step of the scan argument: after one call at
cursor `v` (emission under a `2^b` mask, cursor advanced under a `2^B`
mask, all widths at most `W`), any hash position `x` that is below the new
cursor in reverse-binary order — or any position at all if the cursor
wrapped to 0 — was either already below the old cursor or agrees with the
old cursor modulo `2^b` and so was emitted by this very call. -/
lemma scan_step_coverage (W b B v x : Nat) (hbB : b ≤ B) (hBW : B ≤ W)
    (hcov : scanNextCursor B v = 0 ∨
      bitRev W x < bitRev W (scanNextCursor B v)) :
    bitRev W x < bitRev W v ∨ x % 2 ^ b = v % 2 ^ b := by
  have hbW : b ≤ W := le_trans hbB hBW
  obtain ⟨hAle, _⟩ := bitRev_window W b hbW v
  by_cases hxA : bitRev W x < bitRev b (v % 2 ^ b) * 2 ^ (W - b)
  · exact Or.inl (lt_of_lt_of_le hxA hAle)
  · push_neg at hxA
    refine Or.inr (window_mod_eq W b hbW x v hxA ?hup)
    rcases hcov with hz | hlt
    · have hQ : bitRev B (v % 2 ^ B) + 1 = 2 ^ B :=
        (scanNextCursor_eq_zero_iff B v).mp hz
      have hvB : v % 2 ^ B = 2 ^ B - 1 := by
        have h1 : bitRev B (v % 2 ^ B) = 2 ^ B - 1 := by omega
        have h2 := congrArg (bitRev B) h1
        rw [bitRev_bitRev B _ (Nat.mod_lt _ (by positivity)),
          bitRev_allones] at h2
        exact h2
      have hvb : v % 2 ^ b = 2 ^ b - 1 := by
        have hd : (2 : Nat) ^ b ∣ 2 ^ B := pow_dvd_pow 2 hbB
        rw [← Nat.mod_mod_of_dvd v hd, hvB, pow_sub_one_mod b B hbB]
      rw [hvb, bitRev_allones]
      have hx2 : bitRev W x < 2 ^ W := bitRev_lt W x
      have hpow : (2 : Nat) ^ W = 2 ^ b * 2 ^ (W - b) := by
        rw [← Nat.pow_add]
        congr 1
        omega
      rw [Nat.sub_mul, Nat.one_mul, ← hpow]
      have hMle : (2 : Nat) ^ (W - b) ≤ 2 ^ W :=
        Nat.pow_le_pow_right (by norm_num) (by omega)
      omega
    · by_cases hz : scanNextCursor B v = 0
      · rw [hz, bitRev_zero] at hlt
        omega
      · have hQb := bitRev_lt B (v % 2 ^ B)
        have hQlt : bitRev B (v % 2 ^ B) + 1 < 2 ^ B := by
          rcases Nat.lt_or_ge (bitRev B (v % 2 ^ B) + 1) (2 ^ B) with h | h
          · exact h
          · have he : bitRev B (v % 2 ^ B) + 1 = 2 ^ B := by omega
            exact absurd ((scanNextCursor_eq_zero_iff B v).mpr he) hz
        have hrev' : bitRev B (scanNextCursor B v) =
            bitRev B (v % 2 ^ B) + 1 := by
          rw [scanNextCursor_rev, Nat.mod_eq_of_lt hQlt]
        have hrv' : bitRev W (scanNextCursor B v) =
            bitRev B (scanNextCursor B v) * 2 ^ (W - B) :=
          bitRev_of_lt W B hBW _ (scanNextCursor_lt B v)
        have hBb : b + (B - b) = B := by omega
        have hsQ := bitRev_split b (B - b) (v % 2 ^ B)
        rw [hBb] at hsQ
        have hd : (2 : Nat) ^ b ∣ 2 ^ B := pow_dvd_pow 2 hbB
        have hmm : v % 2 ^ B % 2 ^ b = v % 2 ^ b := Nat.mod_mod_of_dvd v hd
        rw [hmm] at hsQ
        have ht := bitRev_lt (B - b) (v % 2 ^ B / 2 ^ b)
        have hub : bitRev W (scanNextCursor B v) ≤
            bitRev b (v % 2 ^ b) * 2 ^ (W - b) + 2 ^ (W - b) := by
          rw [hrv', hrev', hsQ]
          have step1 : (bitRev b (v % 2 ^ b) * 2 ^ (B - b) +
              bitRev (B - b) (v % 2 ^ B / 2 ^ b) + 1) * 2 ^ (W - B) ≤
              ((bitRev b (v % 2 ^ b) + 1) * 2 ^ (B - b)) * 2 ^ (W - B) := by
            apply Nat.mul_le_mul_right
            have h1 : bitRev (B - b) (v % 2 ^ B / 2 ^ b) + 1 ≤ 2 ^ (B - b) := ht
            have h2 := Nat.add_le_add_left h1
              (bitRev b (v % 2 ^ b) * 2 ^ (B - b))
            rw [← Nat.add_assoc] at h2
            have h3 : (bitRev b (v % 2 ^ b) + 1) * 2 ^ (B - b) =
                bitRev b (v % 2 ^ b) * 2 ^ (B - b) + 2 ^ (B - b) := by ring
            rw [h3]
            exact h2
          have step2 : ((bitRev b (v % 2 ^ b) + 1) * 2 ^ (B - b)) *
              2 ^ (W - B) =
              bitRev b (v % 2 ^ b) * 2 ^ (W - b) + 2 ^ (W - b) := by
            have hexp : (2 : Nat) ^ (B - b) * 2 ^ (W - B) = 2 ^ (W - b) := by
              rw [← Nat.pow_add]
              congr 1
              omega
            calc ((bitRev b (v % 2 ^ b) + 1) * 2 ^ (B - b)) * 2 ^ (W - B)
                = (bitRev b (v % 2 ^ b) + 1) *
                    (2 ^ (B - b) * 2 ^ (W - B)) := by ring
              _ = (bitRev b (v % 2 ^ b) + 1) * 2 ^ (W - b) := by rw [hexp]
              _ = bitRev b (v % 2 ^ b) * 2 ^ (W - b) + 2 ^ (W - b) := by ring
          calc (bitRev b (v % 2 ^ b) * 2 ^ (B - b) +
              bitRev (B - b) (v % 2 ^ B / 2 ^ b) + 1) * 2 ^ (W - B)
              ≤ ((bitRev b (v % 2 ^ b) + 1) * 2 ^ (B - b)) * 2 ^ (W - B) :=
                step1
            _ = bitRev b (v % 2 ^ b) * 2 ^ (W - b) + 2 ^ (W - b) := step2
        exact lt_of_lt_of_le hlt hub

lemma pow_exp_le (a b : Nat) (hab : (2 : Nat) ^ a ≤ 2 ^ b) : a ≤ b := by
  by_contra hc
  push_neg at hc
  have h1 : (2 : Nat) ^ b < 2 ^ a := Nat.pow_lt_pow_right (by norm_num) hc
  omega

lemma log2fuel_pow : ∀ (b fuel : Nat), b ≤ fuel → log2fuel fuel (2 ^ b) = b := by
  intro b
  induction b with
  | zero =>
    intro fuel _
    cases fuel with
    | zero => rfl
    | succ f =>
      show (if 2 ^ 0 ≤ 1 then 0 else log2fuel f (2 ^ 0 / 2) + 1) = 0
      rw [if_pos (by norm_num)]
  | succ b ih =>
    intro fuel hf
    obtain ⟨f, rfl⟩ : ∃ f, fuel = f + 1 := ⟨fuel - 1, by omega⟩
    have hgt : ¬ 2 ^ (b + 1) ≤ 1 := by
      have : (2 : Nat) ^ b > 0 := by positivity
      have hp : (2 : Nat) ^ (b + 1) = 2 * 2 ^ b := by ring
      omega
    show (if 2 ^ (b + 1) ≤ 1 then 0 else log2fuel f (2 ^ (b + 1) / 2) + 1) = b + 1
    rw [if_neg hgt]
    have hdiv : (2 : Nat) ^ (b + 1) / 2 = 2 ^ b := by
      have hp : (2 : Nat) ^ (b + 1) = 2 * 2 ^ b := by ring
      omega
    rw [hdiv, ih f (by omega)]

lemma htBits_eq (t : Dictht) (b : Nat) (hb : t.size = 2 ^ b) : htBits t = b := by
  unfold htBits
  rw [hb]
  exact log2fuel_pow b (2 ^ b) (le_of_lt (Nat.lt_two_pow b))

/-- Scanning a rehashing pair of tables: an entry whose hash agrees with
the cursor modulo the smaller table's size is handed out, whether it lives
in the smaller table (the cursor's bucket) or in the larger one (one of the
expanded buckets sharing the low bits). -/
lemma scan_pair_mem (h : Nat → Nat) (s l : Dictht) (v : Nat) (e : DictEntry)
    (hws : htWF h s) (hwl : htWF h l) (bs bl : Nat)
    (hbs : s.size = 2 ^ bs) (hbl : l.size = 2 ^ bl) (hle : bs ≤ bl)
    (he : e ∈ htEntries s ∨ e ∈ htEntries l)
    (hagree : h e.key % 2 ^ bs = v % 2 ^ bs) :
    e ∈ htBucket s (v &&& s.sizemask) ++
      (List.range (l.size / s.size)).flatMap
        (fun q => htBucket l ((v &&& s.sizemask) + q * s.size)) := by
  have hmask_s : s.sizemask = 2 ^ bs - 1 := by
    obtain ⟨_, _, h3, _, _⟩ := hws
    rw [h3, hbs]
  have hbase : v &&& s.sizemask = v % 2 ^ bs := by
    rw [hmask_s, Nat.and_pow_two_sub_one_eq_mod]
  rcases he with he | he
  · have hm := mem_bucket_of_mem h s hws e he
    have hidx : htIndex s (h e.key) = h e.key % 2 ^ bs := by
      unfold htIndex
      rw [hmask_s, Nat.and_pow_two_sub_one_eq_mod]
    rw [hidx, hagree, ← hbase] at hm
    exact List.mem_append_left _ hm
  · have hm := mem_bucket_of_mem h l hwl e he
    have hmask_l : l.sizemask = 2 ^ bl - 1 := by
      obtain ⟨_, _, h3, _, _⟩ := hwl
      rw [h3, hbl]
    have hidx : htIndex l (h e.key) = h e.key % 2 ^ bl := by
      unfold htIndex
      rw [hmask_l, Nat.and_pow_two_sub_one_eq_mod]
    rw [hidx] at hm
    apply List.mem_append_right
    apply List.mem_flatMap.mpr
    refine ⟨h e.key % 2 ^ bl / 2 ^ bs, ?_, ?_⟩
    · rw [List.mem_range, hbl, hbs, Nat.pow_div hle (by norm_num)]
      rw [Nat.div_lt_iff_lt_mul (by positivity)]
      have hpw : (2 : Nat) ^ (bl - bs) * 2 ^ bs = 2 ^ bl := by
        rw [← Nat.pow_add]
        congr 1
        omega
      rw [hpw]
      exact Nat.mod_lt _ (by positivity)
    · have hsplit : (v &&& s.sizemask) + (h e.key % 2 ^ bl / 2 ^ bs) * s.size
          = h e.key % 2 ^ bl := by
        rw [hbase, hbs]
        have hmm : h e.key % 2 ^ bl % 2 ^ bs = h e.key % 2 ^ bs :=
          Nat.mod_mod_of_dvd _ (pow_dvd_pow 2 hle)
        rw [← hagree, ← hmm, Nat.mul_comm]
        exact Nat.mod_add_div _ _
      rw [hsplit]
      exact hm

/-- One `dictScan` call, abstractly: there are widths `bS ≤ bL` (of the
smaller and larger live tables) such that the returned cursor is the
reverse-binary increment under the `2^bL` mask, and any resident entry
whose hash matches the cursor modulo `2^bS` is emitted. -/
lemma dictScan_emits (h : Nat → Nat) (d : Dict) (v : Nat) (e : DictEntry)
    (hwf : dictWF h d) (he : e ∈ dictEntries d) :
    ∃ bS bL : Nat, bS ≤ bL ∧
      (2 ^ bL = d.ht0.size ∨ 2 ^ bL = d.ht1.size) ∧
      (dictScan d v).2 = scanNextCursor bL v ∧
      (h e.key % 2 ^ bS = v % 2 ^ bS → e ∈ (dictScan d v).1) := by
  obtain ⟨hw0, hw1, hnd, hrs⟩ := hwf
  have hs0 : ¬ dictSize d = 0 := by
    intro hz
    unfold dictSize at hz
    have hz0 : d.ht0.used = 0 := by omega
    have hz1 : d.ht1.used = 0 := by omega
    have he0 := htEntries_empty_of_used_zero h _ hw0 hz0
    have he1 := htEntries_empty_of_used_zero h _ hw1 hz1
    unfold dictEntries at he
    rw [he0, he1] at he
    simp at he
  by_cases hre : d.rehashidx = -1
  · rw [if_pos hre] at hrs
    have hreb : dictIsRehashing d = false := by
      unfold dictIsRehashing
      simp [hre]
    have he0 : e ∈ htEntries d.ht0 := by
      unfold dictEntries at he
      rcases List.mem_append.mp he with h' | h'
      · exact h'
      · rw [hrs] at h'
        simp [htEntries, emptyHt] at h'
    have hsz : d.ht0.size ≠ 0 := by
      intro hz
      have hemp := htEntries_of_size_zero h _ hw0 hz
      rw [hemp] at he0
      simp at he0
    obtain ⟨b0, _, hb0⟩ := (hw0.2.1).resolve_left hsz
    have hscan : dictScan d v =
        (htBucket d.ht0 (v &&& d.ht0.sizemask),
          scanNextCursor (htBits d.ht0) v) := by
      unfold dictScan
      rw [if_neg hs0, if_pos (by simp [hreb])]
    refine ⟨b0, b0, le_refl _, Or.inl hb0.symm, ?_, ?_⟩
    · rw [hscan, htBits_eq d.ht0 b0 hb0]
    · intro hag
      rw [hscan]
      have hmask : d.ht0.sizemask = 2 ^ b0 - 1 := by
        obtain ⟨_, _, h3, _, _⟩ := hw0
        rw [h3, hb0]
      have hm := mem_bucket_of_mem h d.ht0 hw0 e he0
      have hidx : htIndex d.ht0 (h e.key) = h e.key % 2 ^ b0 := by
        unfold htIndex
        rw [hmask, Nat.and_pow_two_sub_one_eq_mod]
      have hbase : v &&& d.ht0.sizemask = v % 2 ^ b0 := by
        rw [hmask, Nat.and_pow_two_sub_one_eq_mod]
      rw [hidx, hag, ← hbase] at hm
      exact hm
  · rw [if_neg hre] at hrs
    obtain ⟨_, _, hsz0, hsz1, _⟩ := hrs
    have hreb : dictIsRehashing d = true := by
      unfold dictIsRehashing
      simp [hre]
    obtain ⟨b0, _, hb0⟩ := (hw0.2.1).resolve_left hsz0
    obtain ⟨b1, _, hb1⟩ := (hw1.2.1).resolve_left hsz1
    have hme : e ∈ htEntries d.ht0 ∨ e ∈ htEntries d.ht1 := by
      unfold dictEntries at he
      exact List.mem_append.mp he
    have hscan : dictScan d v =
        (htBucket (if d.ht0.size ≤ d.ht1.size then d.ht0 else d.ht1)
            (v &&& (if d.ht0.size ≤ d.ht1.size then d.ht0 else d.ht1).sizemask) ++
          (List.range ((if d.ht0.size ≤ d.ht1.size then d.ht1 else d.ht0).size /
              (if d.ht0.size ≤ d.ht1.size then d.ht0 else d.ht1).size)).flatMap
            (fun q =>
              htBucket (if d.ht0.size ≤ d.ht1.size then d.ht1 else d.ht0)
                ((v &&& (if d.ht0.size ≤ d.ht1.size then d.ht0
                    else d.ht1).sizemask) +
                  q * (if d.ht0.size ≤ d.ht1.size then d.ht0
                    else d.ht1).size)),
          scanNextCursor
            (htBits (if d.ht0.size ≤ d.ht1.size then d.ht1 else d.ht0)) v) := by
      unfold dictScan
      rw [if_neg hs0, if_neg (by simp [hreb] : ¬ ¬ dictIsRehashing d = true)]
    by_cases hcmp : d.ht0.size ≤ d.ht1.size
    · have hble : b0 ≤ b1 := by
        apply pow_exp_le
        rw [← hb0, ← hb1]
        exact hcmp
      refine ⟨b0, b1, hble, Or.inr hb1.symm, ?_, ?_⟩
      · rw [hscan]
        show scanNextCursor
          (htBits (if d.ht0.size ≤ d.ht1.size then d.ht1 else d.ht0)) v = _
        rw [if_pos hcmp, htBits_eq d.ht1 b1 hb1]
      · intro hag
        rw [hscan]
        show e ∈ htBucket (if d.ht0.size ≤ d.ht1.size then d.ht0 else d.ht1) _ ++ _
        simp only [if_pos hcmp]
        exact scan_pair_mem h d.ht0 d.ht1 v e hw0 hw1 b0 b1 hb0 hb1 hble hme hag
    · have hble : b1 ≤ b0 := by
        apply pow_exp_le
        rw [← hb0, ← hb1]
        omega
      refine ⟨b1, b0, hble, Or.inl hb0.symm, ?_, ?_⟩
      · rw [hscan]
        show scanNextCursor
          (htBits (if d.ht0.size ≤ d.ht1.size then d.ht1 else d.ht0)) v = _
        rw [if_neg hcmp, htBits_eq d.ht0 b0 hb0]
      · intro hag
        rw [hscan]
        show e ∈ htBucket (if d.ht0.size ≤ d.ht1.size then d.ht0 else d.ht1) _ ++ _
        simp only [if_neg hcmp]
        exact scan_pair_mem h d.ht1 d.ht0 v e hw1 hw0 b1 b0 hb1 hb0 hble
          hme.symm hag

/-- Run-level coverage invariant: at every point of the scan loop, any key
held throughout is either already below the cursor in reverse-binary order
(it was emitted by an earlier call) or is emitted by the remaining calls,
provided the loop runs until the cursor returns to 0. -/
lemma scanRun_covers (h : Nat → Nat) (W k : Nat) :
    ∀ (Ds : List Dict) (v : Nat),
      (∀ d ∈ Ds, dictWF h d ∧ (∃ e ∈ dictEntries d, e.key = k) ∧
        d.ht0.size ≤ 2 ^ W ∧ d.ht1.size ≤ 2 ^ W) →
      (scanRun Ds v).2 = 0 → Ds ≠ [] →
      bitRev W (h k) < bitRev W v ∨
      ∃ es ∈ (scanRun Ds v).1, ∃ e ∈ es, e.key = k := by
  intro Ds
  induction Ds with
  | nil =>
    intro v _ _ hne
    exact absurd rfl hne
  | cons d Ds ih =>
    intro v hyp hrun _
    obtain ⟨hwf, ⟨e, hee, hek⟩, hs0W, hs1W⟩ := hyp d (List.mem_cons_self d Ds)
    obtain ⟨bS, bL, hble, hpow, hcur, hemit⟩ := dictScan_emits h d v e hwf hee
    have hbLW : bL ≤ W := by
      apply pow_exp_le
      rcases hpow with hp | hp
      · rw [hp]
        exact hs0W
      · rw [hp]
        exact hs1W
    have hsr : scanRun (d :: Ds) v =
        ((dictScan d v).1 :: (scanRun Ds (dictScan d v).2).1,
          (scanRun Ds (dictScan d v).2).2) := rfl
    have hagree_emit : h e.key % 2 ^ bS = v % 2 ^ bS →
        ∃ es ∈ (scanRun (d :: Ds) v).1, ∃ e' ∈ es, e'.key = k := by
      intro hag
      refine ⟨(dictScan d v).1, ?_, e, hemit hag, hek⟩
      rw [hsr]
      exact List.mem_cons_self _ _
    cases Ds with
    | nil =>
      have hz : (dictScan d v).2 = 0 := by
        rw [hsr] at hrun
        exact hrun
      rw [hcur] at hz
      rcases scan_step_coverage W bS bL v (h k) hble hbLW (Or.inl hz)
        with hlt | hag
      · exact Or.inl hlt
      · apply Or.inr
        apply hagree_emit
        rw [hek]
        exact hag
    | cons d2 Ds2 =>
      have hrun2 : (scanRun (d2 :: Ds2) (dictScan d v).2).2 = 0 := by
        rw [hsr] at hrun
        exact hrun
      have hyp2 : ∀ x ∈ d2 :: Ds2, dictWF h x ∧
          (∃ e' ∈ dictEntries x, e'.key = k) ∧
          x.ht0.size ≤ 2 ^ W ∧ x.ht1.size ≤ 2 ^ W :=
        fun x hx => hyp x (List.mem_cons_of_mem d hx)
      rcases ih ((dictScan d v).2) hyp2 hrun2 (by simp) with hlt | hfound
      · rw [hcur] at hlt
        rcases scan_step_coverage W bS bL v (h k) hble hbLW (Or.inr hlt)
          with hlt2 | hag
        · exact Or.inl hlt2
        · apply Or.inr
          apply hagree_emit
          rw [hek]
          exact hag
      · obtain ⟨es, hes, hrest⟩ := hfound
        refine Or.inr ⟨es, ?_, hrest⟩
        rw [hsr]
        exact List.mem_cons_of_mem _ hes

/-- C6: a scan loop that starts at cursor 0, repeatedly calls `dictScan`
with the returned cursor on the (possibly grown, shrunk or rehashing)
dictionary states, and stops when the returned cursor is 0, emits every
key that is present in the dictionary for the entire duration of the scan
at least once (`W` bounds the widths of every table encountered); and each
call advances the cursor by reverse-binary increment — invert the bits
under the mask of the larger sub-table (the only one when not rehashing),
add one, invert again. -/
theorem dictScan_complete (h : Nat → Nat) (W k : Nat) (D : Dict)
    (Ds : List Dict)
    (hyp : ∀ d ∈ D :: Ds, dictWF h d ∧ k ∈ dictKeys d ∧
      d.ht0.size ≤ 2 ^ W ∧ d.ht1.size ≤ 2 ^ W)
    (hrun : (scanRun (D :: Ds) 0).2 = 0) :
    (∃ es ∈ (scanRun (D :: Ds) 0).1, ∃ e ∈ es, e.key = k) ∧
    (∀ d ∈ D :: Ds, ∀ v : Nat, 0 < dictSize d →
      (dictScan d v).2 = scanNextCursor
        (htBits (if dictIsRehashing d then
          (if d.ht0.size ≤ d.ht1.size then d.ht1 else d.ht0) else d.ht0)) v) := by
  constructor
  · have hyp' : ∀ d ∈ D :: Ds, dictWF h d ∧
        (∃ e ∈ dictEntries d, e.key = k) ∧
        d.ht0.size ≤ 2 ^ W ∧ d.ht1.size ≤ 2 ^ W := by
      intro d hd
      obtain ⟨hwf, hk, hs⟩ := hyp d hd
      refine ⟨hwf, ?_, hs⟩
      unfold dictKeys at hk
      obtain ⟨e, hee, hek⟩ := List.mem_map.mp hk
      exact ⟨e, hee, hek⟩
    rcases scanRun_covers h W k (D :: Ds) 0 hyp' hrun (by simp)
      with hlt | hfound
    · rw [bitRev_zero] at hlt
      exact absurd hlt (Nat.not_lt_zero _)
    · exact hfound
  · intro d _ v hpos
    have hszne : ¬ dictSize d = 0 := by omega
    unfold dictScan
    by_cases hb : dictIsRehashing d = true
    · rw [if_neg hszne,
        if_neg (by simp [hb] : ¬ ¬ dictIsRehashing d = true), if_pos hb]
    · have hb' : dictIsRehashing d = false := by
        simpa using hb
      rw [if_neg hszne, if_pos hb, if_neg hb]

/-- A concrete scan loop: four calls on a stable well-formed 4-bucket
dictionary holding key 1; the cursor sequence 0, 2, 1, 3 returns to 0 and
the key is emitted. -/
theorem dictScan_complete_witness :
    ∃ es ∈ (scanRun
        (⟨⟨[[], [⟨1, 5⟩], [], []], 4, 3, 1⟩, emptyHt, -1, 0⟩ ::
          [⟨⟨[[], [⟨1, 5⟩], [], []], 4, 3, 1⟩, emptyHt, -1, 0⟩,
            ⟨⟨[[], [⟨1, 5⟩], [], []], 4, 3, 1⟩, emptyHt, -1, 0⟩,
            ⟨⟨[[], [⟨1, 5⟩], [], []], 4, 3, 1⟩, emptyHt, -1, 0⟩]) 0).1,
      ∃ e ∈ es, e.key = 1 :=
  (dictScan_complete id 2 1
    ⟨⟨[[], [⟨1, 5⟩], [], []], 4, 3, 1⟩, emptyHt, -1, 0⟩
    [⟨⟨[[], [⟨1, 5⟩], [], []], 4, 3, 1⟩, emptyHt, -1, 0⟩,
      ⟨⟨[[], [⟨1, 5⟩], [], []], 4, 3, 1⟩, emptyHt, -1, 0⟩,
      ⟨⟨[[], [⟨1, 5⟩], [], []], 4, 3, 1⟩, emptyHt, -1, 0⟩]
    (by decide) (by decide)).1
